import Mathlib

/-!
Verification of the periodic-boundary repair and coarse-graining engine
(`utils.py`): molecule indexing (`get_molecules`), boundary repair
(`CG_Compound.unwrap` / `CG_Compound.wrap`) and coarse-grain reduction
(`coarse`, `cg_comp`, `cg_bonds`, `num2str`, `has_number`).

Positions are modelled exactly over `ℚ` (the Python code computes with
floats); Euclidean distances live in `ℝ` via `Real.sqrt`.
-/

/-- A 3-vector of rational coordinates (one particle position). -/
structure Vec3 where
  x : ℚ
  y : ℚ
  z : ℚ
deriving DecidableEq

/-- Componentwise difference, as in `pos1 - pos2` on numpy arrays. -/
def vsub (p q : Vec3) : Vec3 := ⟨p.x - q.x, p.y - q.y, p.z - q.z⟩

/-- Squared Euclidean norm of a vector (sum of squared components). -/
def sqNorm (v : Vec3) : ℚ := v.x ^ 2 + v.y ^ 2 + v.z ^ 2

/-- `distance(pos1, pos2)` from `utils.py`: the Euclidean norm
`np.linalg.norm(pos1 - pos2)`, i.e. the real square root of `sqNorm`. -/
noncomputable def dist3 (p q : Vec3) : ℝ := Real.sqrt ((sqNorm (vsub p q) : ℚ) : ℝ)

/-- The in-memory structure backing a `CG_Compound`: particle positions by
index, the bond list (insertion-ordered index pairs, as yielded by the
mbuild bond graph), and the optional periodic box (`self.box`, which is
`None` until assigned). -/
structure Compound where
  pos : List Vec3
  bonds : List (ℕ × ℕ)
  box : Option Vec3
deriving DecidableEq

/-- Position of particle `i` (particle indices are list positions). -/
def posOf (c : Compound) (i : ℕ) : Vec3 := c.pos.getD i ⟨0, 0, 0⟩

/-- Neighbor set of node `i` in the bond graph built from a bond list:
both `_snap_bond_graph` in `get_molecules` and `CG_Compound.bond_dict`
insert each bond pair symmetrically. -/
def bondDict (bonds : List (ℕ × ℕ)) (i : ℕ) : Finset ℕ :=
  (((bonds.filter (fun p => p.1 = i)).map (fun p => p.2)) ++
    ((bonds.filter (fun p => p.2 = i)).map (fun p => p.1))).toFinset

/-- Key list of the bond-graph dictionary: node indices in order of first
appearance in the bond array (Python dict insertion order; each row
inserts `row[0]` then `row[1]`). -/
def graphKeys (bonds : List (ℕ × ℕ)) : List ℕ :=
  (bonds.flatMap (fun p => [p.1, p.2])).foldl
    (fun acc n => if n ∈ acc then acc else acc ++ [n]) []

/-- The `while nodes:` loop of `_get_connected_group`: pop a node, mark it
seen, push its unseen neighbors, and accumulate it into the reachable set.
Python's `set.pop` removes an unspecified element; we pop the minimum
(CPython iterates small-int sets in increasing order).  The loop always
terminates because `seen` grows at every iteration; `fuel` is a bound on
the number of iterations, chosen large enough by the callers below. -/
def floodFill (adj : ℕ → Finset ℕ) : ℕ → Finset ℕ → Finset ℕ → Finset ℕ → Finset ℕ × Finset ℕ
  | 0, _, seen, result => (result, seen)
  | fuel + 1, nodes, seen, result =>
    if h : nodes.Nonempty then
      let n := nodes.min' h
      let seen' := insert n seen
      let nodes' := (nodes.erase n) ∪ (adj n \ seen')
      floodFill adj fuel nodes' seen' (insert n result)
    else (result, seen)

/-- The outer loop of `get_molecules`: walk the node keys in order and
flood-fill a new connected group from every not-yet-seen key. -/
def componentsLoop (adj : ℕ → Finset ℕ) (fuel : ℕ) : List ℕ → Finset ℕ → List (Finset ℕ)
  | [], _ => []
  | k :: ks, seen =>
    if k ∈ seen then componentsLoop adj fuel ks seen
    else
      let out := floodFill adj fuel {k} seen ∅
      out.1 :: componentsLoop adj fuel ks out.2

/-- `get_molecules(snapshot)` from `utils.py` (module level): connected
components of the bond graph built from `snapshot.bonds.group`.  Only
nodes that occur in some bond are keys of the graph dictionary, so only
those are visited. -/
def getMoleculesSnap (bonds : List (ℕ × ℕ)) : List (Finset ℕ) :=
  componentsLoop (bondDict bonds) ((graphKeys bonds).length + 1) (graphKeys bonds) ∅

/-- `CG_Compound.get_molecules`: connected components of the compound's
bond graph, translated to particle indices.  Modelled from the spec: the
mbuild bond graph backing it is external; per the data model every
particle of the compound is a node of that graph (isolated particles form
singleton components), so the key list is all particle indices in order. -/
def Compound.getMolecules (c : Compound) : List (Finset ℕ) :=
  componentsLoop (bondDict c.bonds) (c.pos.length + 2 * c.bonds.length + 1)
    (List.range c.pos.length) ∅

/-- Centroid (`np.mean(xyz, axis=0)`) of the particles of `m`. -/
def centroid (c : Compound) (m : Finset ℕ) : Vec3 :=
  ⟨(∑ i ∈ m, (posOf c i).x) / m.card,
   (∑ i ∈ m, (posOf c i).y) / m.card,
   (∑ i ∈ m, (posOf c i).z) / m.card⟩

/-- Mean particle-to-centroid distance of the particle set `m`
(`np.mean(v_distance(a, center_a))` in `_is_outlier`). -/
noncomputable def avgDist (c : Compound) (m : Finset ℕ) : ℝ :=
  (∑ i ∈ m, dist3 (posOf c i) (centroid c m)) / (m.card : ℝ)

/-- The molecule used for particle `i` by `_is_outlier` / `_d_to_center`:
the loop `for molecule in molecules: if index in molecule:` overwrites its
state on every containing molecule, so the last one wins. -/
def lastMolOf (mols : List (Finset ℕ)) (i : ℕ) : Option (Finset ℕ) :=
  (mols.filter (fun m => decide (i ∈ m))).getLast?

/-- `_is_outlier(index)` from `CG_Compound.unwrap`: excluding the particle
from its molecule strictly reduces the mean particle-to-centroid distance.
(If the particle lies in no molecule the Python code would read unbound
locals; that case is unreachable because only bonded particles are
tested, and we return `False`.) -/
noncomputable def isOutlier (c : Compound) (mols : List (Finset ℕ)) (i : ℕ) : Prop :=
  match lastMolOf mols i with
  | some m => avgDist c m > avgDist c (m.erase i)
  | none => False

/-- `_d_to_center(index)`: distance from the particle to the centroid of
its (full) molecule. -/
noncomputable def dToCenter (c : Compound) (mols : List (Finset ℕ)) (i : ℕ) : ℝ :=
  match lastMolOf mols i with
  | some m => dist3 (posOf c i) (centroid c m)
  | none => 0

/-- Errors with which `CG_Compound.unwrap` escapes: the explicit
`RuntimeError` of ambiguous outlier classification, and the uncaught
`TypeError` raised by `freud.box.Box(*list(self.box))` when `self.box`
is `None` (line 896; unlike `wrap`, `unwrap` has no try/except). -/
inductive UnwrapErr where
  | ambiguous (a b : ℕ)
  | noBoxCrash
deriving DecidableEq

open Classical in
/-- One iteration of the classification loop of `find_outliers`, acting on
the accumulated `(outliers, checked)` sets for one bad bond `tup`. -/
noncomputable def classifyBond (c : Compound) (mols : List (Finset ℕ))
    (st : Finset ℕ × Finset ℕ) (tup : ℕ × ℕ) :
    Except UnwrapErr (Finset ℕ × Finset ℕ) :=
  let checked' := insert tup.2 (insert tup.1 st.2)
  if isOutlier c mols tup.1 ∧ isOutlier c mols tup.2 then
    if dToCenter c mols tup.1 > dToCenter c mols tup.2 then
      .ok (insert tup.1 st.1, checked')
    else if dToCenter c mols tup.2 > dToCenter c mols tup.1 then
      .ok (insert tup.2 st.1, checked')
    else
      .error (.ambiguous tup.1 tup.2)
  else if isOutlier c mols tup.1 then .ok (insert tup.1 st.1, checked')
  else if isOutlier c mols tup.2 then .ok (insert tup.2 st.1, checked')
  else .ok (st.1, checked')

/-- The `while starts:` propagation loop of `find_outliers`: pop an index,
add its not-yet-checked bond neighbors to both `outliers` and `starts`,
and mark it checked.  As with `floodFill`, `set.pop` is modelled by the
minimum and `fuel` bounds the (always finite) iteration count. -/
def propagate (adj : ℕ → Finset ℕ) : ℕ → Finset ℕ → Finset ℕ → Finset ℕ → Finset ℕ
  | 0, _, outliers, _ => outliers
  | fuel + 1, starts, outliers, checked =>
    if h : starts.Nonempty then
      let i := starts.min' h
      let new := adj i \ checked
      propagate adj fuel ((starts.erase i) ∪ new) (outliers ∪ new) (insert i checked)
    else outliers

/-- `find_outliers(compound)`: classify each bad bond in order (raising on
ambiguity), then flood outward along the bond graph from the classified
outliers, skipping already-checked particles. -/
noncomputable def findOutliers (c : Compound) (mols : List (Finset ℕ))
    (maybeOutliers : List (ℕ × ℕ)) : Except UnwrapErr (Finset ℕ) := do
  let st ← maybeOutliers.foldlM (classifyBond c mols) (∅, ∅)
  pure (propagate (bondDict c.bonds)
    (st.1.card + 2 * c.bonds.length + 1) st.1 st.1 st.2)

open Classical in
/-- `check_bad_bonds(compound)`: the bonds (as particle-index pairs, in
bond-list order) whose Euclidean length exceeds `d_tolerance`. -/
noncomputable def badBonds (c : Compound) (tol : ℚ) : List (ℕ × ℕ) :=
  c.bonds.filter (fun p => decide (dist3 (posOf c p.1) (posOf c p.2) > ((tol : ℚ) : ℝ)))

/-- One component of the image vector:
`np.where(image > box/2, 1, 0) + np.where(image < -box/2, -1, 0)`. -/
def imgComp (d L : ℚ) : ℚ :=
  (if d > L / 2 then 1 else 0) + (if d < -(L / 2) then -1 else 0)

/-- The per-axis image vector computed in the relocation loop of `unwrap`
from `image = mol_avg - particles[outlier].pos`. -/
def imgVec (d b : Vec3) : Vec3 := ⟨imgComp d.x b.x, imgComp d.y b.y, imgComp d.z b.z⟩

/-- Modelled from the spec: `freud.box.Box.unwrap(point, image)` for an
orthorhombic box is `point + image ⊙ box_lengths` (§4.1 of the spec);
freud itself is an external collaborator. -/
def unwrapPos (p img b : Vec3) : Vec3 :=
  ⟨p.x + img.x * b.x, p.y + img.y * b.y, p.z + img.z * b.z⟩

/-- The molecule index a particle is assigned to by the
`outlier_dict` grouping of `unwrap`: `mol_ind[0]`, the first molecule of
the list containing it. -/
def firstMolIdx (mols : List (Finset ℕ)) (i : ℕ) : Option ℕ :=
  mols.findIdx? (fun m => decide (i ∈ m))

/-- New position of particle `i` after the relocation loop of `unwrap`
(lines 879-903): an outlier assigned to molecule `mol_ind` is unwrapped
with the image vector computed from the centroid of that molecule minus
the outliers assigned to it (`molecule -= outlier_dict[mol_ind]`); every
other particle keeps its position.  All centroids read the pre-relocation
positions: the anchors are never moved, and each outlier is moved exactly
once. -/
def relocatePos (c : Compound) (mols : List (Finset ℕ)) (outliers : Finset ℕ)
    (b : Vec3) (i : ℕ) : Vec3 :=
  if i ∈ outliers then
    match firstMolIdx mols i with
    | some midx =>
      match mols[midx]? with
      | some m =>
        let assignedHere := outliers.filter (fun o => firstMolIdx mols o = some midx)
        let anchor := m \ assignedHere
        unwrapPos (posOf c i) (imgVec (vsub (centroid c anchor) (posOf c i)) b) b
      | none => posOf c i
    | none => posOf c i
  else posOf c i

/-- The whole relocation phase: positions updated pointwise. -/
def relocate (c : Compound) (mols : List (Finset ℕ)) (outliers : Finset ℕ)
    (b : Vec3) : Compound :=
  { c with pos := (List.range c.pos.length).map (relocatePos c mols outliers b) }

/-- Outcome of one scan-classify-propagate-relocate-verify pass of
`unwrap`: no bad bond was found at all (the early `return` that prints
"No bonds found longer than ..."), or the verification re-scan after
relocation came back clean, or bad bonds remain after relocation. -/
inductive PassOut where
  | clean (c : Compound)
  | fixed (c : Compound)
  | remaining (c : Compound)
deriving DecidableEq

open Classical in
/-- The body of one invocation of `CG_Compound.unwrap` up to (and
including) the re-scan for remaining bad bonds: scan for bad bonds,
classify and propagate outliers, relocate them, re-scan.  The box is only
touched (`freud.box.Box(*list(self.box))`) once the per-molecule
relocation loop runs, i.e. when `outlier_dict` is nonempty; with
`box = None` that line raises an uncaught `TypeError`. -/
noncomputable def onePass (tol : ℚ) (c : Compound) : Except UnwrapErr PassOut :=
  let mols := c.getMolecules
  let maybeOutliers := badBonds c tol
  if maybeOutliers = [] then .ok (.clean c)
  else
    match findOutliers c mols maybeOutliers with
    | .error e => .error e
    | .ok outliers =>
      let assigned := outliers.filter (fun o => (firstMolIdx mols o).isSome)
      if assigned = ∅ then
        if badBonds c tol = [] then .ok (.fixed c) else .ok (.remaining c)
      else
        match c.box with
        | none => .error .noBoxCrash
        | some b =>
          let c' := relocate c mols outliers b
          if badBonds c' tol = [] then .ok (.fixed c') else .ok (.remaining c')

/-- How an invocation of `unwrap` reported back: the early "no bad bonds
found, no changes made" message, silent successful completion, or the
"try limit exceeded" message. -/
inductive UnwrapStatus where
  | noBadBonds
  | done
  | limitExceeded
deriving DecidableEq

/-- Result of `unwrap`: the final compound state, how it reported, and the
number of full scan-and-relocate passes performed. -/
structure UnwrapResult where
  comp : Compound
  status : UnwrapStatus
  passes : ℕ
deriving DecidableEq

/-- `CG_Compound.unwrap(d_tolerance, _count)`: run one pass; if bad bonds
remain and `_count < 5`, recurse with `_count + 1` on the updated
positions, otherwise stop reporting the try limit exceeded. -/
noncomputable def unwrapAux (tol : ℚ) : ℕ → Compound → Except UnwrapErr UnwrapResult
  | count, c =>
    match onePass tol c with
    | .error e => .error e
    | .ok (.clean c') => .ok ⟨c', .noBadBonds, 1⟩
    | .ok (.fixed c') => .ok ⟨c', .done, 1⟩
    | .ok (.remaining c') =>
      if _h : count < 5 then
        match unwrapAux tol (count + 1) c' with
        | .error e => .error e
        | .ok r => .ok ⟨r.comp, r.status, r.passes + 1⟩
      else .ok ⟨c', .limitExceeded, 1⟩
  termination_by count => 5 - count
  decreasing_by omega

/-- `CG_Compound.unwrap` as called by users (`_count` starts at 0; the
Python default tolerance is 0.22). -/
noncomputable def Compound.unwrap (c : Compound) (tol : ℚ) : Except UnwrapErr UnwrapResult :=
  unwrapAux tol 0 c

/-- Modelled from the spec: `freud.box.Box.wrap` maps a point into the
primary cell `[-L/2, L/2)` per axis (§4.1); freud is external.  This is
`x - L * ⌊x / L + 1/2⌋` per coordinate. -/
def wrapCoord (x L : ℚ) : ℚ := x - L * ⌊x / L + 1 / 2⌋

/-- Componentwise `freud.box.Box.wrap`. -/
def wrapPoint (p b : Vec3) : Vec3 :=
  ⟨wrapCoord p.x b.x, wrapCoord p.y b.y, wrapCoord p.z b.z⟩

/-- A particle is selected by `np.argwhere(abs(self.xyz) > self.box/2)`
when some coordinate sticks out of the half-open primary cell. -/
def outOfBox (p b : Vec3) : Prop :=
  |p.x| > b.x / 2 ∨ |p.y| > b.y / 2 ∨ |p.z| > b.z / 2

/-- `CG_Compound.wrap()`: constructing the freud box with `box = None`
raises `TypeError`, which is caught — the method prints that it cannot
wrap and returns with the compound unchanged (`true` in the second
component records that this report happened).  Otherwise every particle
out of the box is translated to its wrapped position. -/
def Compound.wrap (c : Compound) : Compound × Bool :=
  match c.box with
  | none => (c, true)
  | some b =>
    ({ c with pos := c.pos.map (fun p => if |p.x| > b.x / 2 ∨ |p.y| > b.y / 2 ∨ |p.z| > b.z / 2 then wrapPoint p b else p) }, false)

/-- `has_number(string)`: `re.search("[0-9]", string)` is truthy, i.e. the
string contains a decimal digit. -/
def hasNumber (s : String) : Bool := s.data.any (fun ch => ch.isDigit)

/-- `has_common_member(set_a, tup)`: the intersection of the claimed set
with the tuple's members is nonempty (Python returns the intersection
itself, used for its truthiness). -/
def hasCommonMember (seen : Finset ℕ) (g : List ℕ) : Bool :=
  g.any (fun a => a ∈ seen)

/-- `num2str(num)`: a capital letter for 0-25, and a two-letter string
`chr(num // 26 + 64) ++ chr(num % 26 + 65)` from 26 on. -/
def num2str (num : ℕ) : String :=
  if num < 26 then String.mk [Char.ofNat (num + 65)]
  else String.mk [Char.ofNat (num / 26 + 64), Char.ofNat (num % 26 + 65)]

/-- One pattern match handed to the dedup loop of `coarse`:
`(group, smart_str, bead name)`. -/
structure BeadMatch where
  group : List ℕ
  smarts : String
  bname : String
deriving DecidableEq

/-- The match-collection loop of `coarse` (lines 427-434): for the `i`-th
SMARTS string, every group returned by the external matcher
(`pybel.Smarts(...).findall(mol)`, here the oracle `findall`, 1-indexed)
is shifted down by one and tagged with the pattern string and the bead
name `"_" ++ num2str i`. -/
def mkMatches (beadSmarts : List String) (findall : String → List (List ℕ)) :
    List BeadMatch :=
  beadSmarts.enum.flatMap (fun p =>
    (findall p.2).map (fun g => ⟨g.map (fun a => a - 1), p.2, "_" ++ num2str p.1⟩))

/-- The greedy dedup loop of `coarse` (lines 436-452): ring-like matches
(SMARTS containing a digit) are always accepted and claim their atoms
even when already claimed; chain-like matches are accepted only when no
member atom is claimed, and are otherwise discarded entirely.  Returns
the final claimed-atom set and the accepted matches in order. -/
def selectBeads : List BeadMatch → Finset ℕ → Finset ℕ × List BeadMatch
  | [], seen => (seen, [])
  | m :: rest, seen =>
    if hasNumber m.smarts then
      let out := selectBeads rest (seen ∪ m.group.toFinset)
      (out.1, m :: out.2)
    else if hasCommonMember seen m.group then selectBeads rest seen
    else
      let out := selectBeads rest (seen ∪ m.group.toFinset)
      (out.1, m :: out.2)

/-- Mean position of a group of atoms (`np.mean(comp.xyz[bead], axis=0)`,
over the group tuple in order). -/
def meanPos (c : Compound) (g : List ℕ) : Vec3 :=
  ⟨(g.map (fun i => (posOf c i).x)).sum / g.length,
   (g.map (fun i => (posOf c i).y)).sum / g.length,
   (g.map (fun i => (posOf c i).z)).sum / g.length⟩

/-- `cg_comp(comp, bead_inds)`: records the particle count `N`, then adds
one bead particle per accepted match at the mean position of its member
atoms.  Bead names are the matches' bead names (`mb.Particle(name=
bead_name, pos=avg_xyz)`); the bead added for the `k`-th accepted match
receives particle index `N + k`. -/
def cgComp (c : Compound) (beadInds : List BeadMatch) : Compound × ℕ :=
  ({ c with pos := c.pos ++ beadInds.map (fun m => meanPos c m.group) }, c.pos.length)

/-- Normalization of a bond pair as stored by `CG_Compound.get_bonds`:
`tuple(sorted(...))`. -/
def normPair (p : ℕ × ℕ) : ℕ × ℕ := (min p.1 p.2, max p.1 p.2)

/-- Insertion sort of bond pairs by the lexicographic key used in
`CG_Compound.get_bonds` (`bonds.sort(key=lambda tup: (tup[0], tup[1]))`). -/
def insertPair (p : ℕ × ℕ) : List (ℕ × ℕ) → List (ℕ × ℕ)
  | [] => [p]
  | q :: rest =>
    if p.1 < q.1 ∨ (p.1 = q.1 ∧ p.2 ≤ q.2) then p :: q :: rest
    else q :: insertPair p rest

/-- Sort a list of bond pairs lexicographically. -/
def sortPairs (l : List (ℕ × ℕ)) : List (ℕ × ℕ) :=
  l.foldr insertPair []

/-- `CG_Compound.get_bonds()`: each undirected bond-graph edge, sorted
per-pair `(min, max)` and then sorted lexicographically as a list (the
graph yields each edge once, so duplicates are removed). -/
def getBonds (c : Compound) : List (ℕ × ℕ) :=
  sortPairs ((c.bonds.map normPair).dedup)

/-- Membership of an undirected edge in a bond list, in either
orientation (the mbuild bond graph is symmetric). -/
def edgeMem (l : List (ℕ × ℕ)) (p : ℕ × ℕ) : Prop :=
  p ∈ l ∨ (p.2, p.1) ∈ l

/-- `CG_Compound.add_bond` resolves to an edge insertion into the mbuild
bond graph (a dict of neighbor sets), which is a no-op when the edge is
already present in either orientation; otherwise the edge is appended. -/
def addBond (c : Compound) (p : ℕ × ℕ) : Compound :=
  if p ∈ c.bonds ∨ (p.2, p.1) ∈ c.bonds then c
  else { c with bonds := c.bonds ++ [p] }

/-- The nested loop of `cg_bonds` collecting `bead_bonds`: for every
`i < j` over accepted beads and every atomistic bond `pair`, `(i, j)` is
appended whenever the bond crosses from group `i` to group `j` in either
orientation (`j` is `j + i + 1` over `beads[i+1:]`). -/
def crossPairs (bonds : List (ℕ × ℕ)) (beads : List BeadMatch) : List (ℕ × ℕ) :=
  (List.range (beads.length - 1)).flatMap (fun i =>
    (List.range (beads.length - (i + 1))).flatMap (fun j' =>
      let j := j' + i + 1
      let gi := (beads.getD i ⟨[], "", ""⟩).group
      let gj := (beads.getD j ⟨[], "", ""⟩).group
      bonds.flatMap (fun p =>
        (if p.1 ∈ gi ∧ p.2 ∈ gj then [(i, j)] else []) ++
        (if p.2 ∈ gi ∧ p.1 ∈ gj then [(i, j)] else []))))

/-- `cg_bonds(comp, beads, N)`: compute the crossing bead pairs from the
atomistic bonds and add a bond between the bead particles (at indices
shifted by `N`) for each collected pair. -/
def cgBonds (c : Compound) (beads : List BeadMatch) (N : ℕ) : Compound :=
  (crossPairs (getBonds c) beads).foldl
    (fun acc pr => addBond acc (pr.1 + N, pr.2 + N)) c


/-- The repositioning formula as the spec states it (§4.3 step 4): the
anchor centroid `c` is the mean position of the molecule's non-outlier
particles, and per axis the image is `+1` if `(c - p.pos)` exceeds
`+box/2`, `-1` if it is below `-box/2`, else `0`; the particle moves to
the periodic unwrap of its position with that image.  This is the
spec-side formula which the relocation code is compared against. -/
def specRelocatedPos (c : Compound) (anchor : Finset ℕ) (b : Vec3) (i : ℕ) : Vec3 :=
  let cA := centroid c anchor
  let d := vsub cA (posOf c i)
  ⟨(posOf c i).x + (if d.x > b.x / 2 then (1 : ℚ) else if d.x < -(b.x / 2) then -1 else 0) * b.x,
   (posOf c i).y + (if d.y > b.y / 2 then (1 : ℚ) else if d.y < -(b.y / 2) then -1 else 0) * b.y,
   (posOf c i).z + (if d.z > b.z / 2 then (1 : ℚ) else if d.z < -(b.z / 2) then -1 else 0) * b.z⟩

/-- The two-atom scenario of the spec: a cubic box of side 10, atom A at
`(0.1, 0, 0)`, atom B at `(9.9, 0, 0)`, one bond between them. -/
def exTwoAtom : Compound :=
  ⟨[⟨1/10, 0, 0⟩, ⟨99/10, 0, 0⟩], [(0, 1)], some ⟨10, 10, 10⟩⟩

/-- A compound whose single bond is shorter than the default tolerance. -/
def exShort : Compound :=
  ⟨[⟨0, 0, 0⟩, ⟨1/10, 0, 0⟩], [(0, 1)], some ⟨10, 10, 10⟩⟩

/-- A three-atom chain with one long bond and `box = None`: particle 2 is
classified as the sole outlier, so `unwrap` reaches the relocation loop. -/
def exNoBox : Compound :=
  ⟨[⟨0, 0, 0⟩, ⟨1/10, 0, 0⟩, ⟨5, 0, 0⟩], [(0, 1), (1, 2)], none⟩

/-- A four-atom molecule (two tight clusters near opposite box faces)
where both endpoints of the long bond `(0, 3)` test as outliers but lie
at different distances from the molecule centroid. -/
def exTie4 : Compound :=
  ⟨[⟨0, 0, 0⟩, ⟨1/10, 0, 0⟩, ⟨49/5, 0, 0⟩, ⟨10, 0, 0⟩], [(0, 1), (0, 3), (2, 3)],
   some ⟨10, 10, 10⟩⟩

/-- A three-atom chain (cluster at the origin plus one distant particle)
used to exercise the relocation formula with outlier set `{2}`. -/
def exAnchor3 : Compound :=
  ⟨[⟨0, 0, 0⟩, ⟨1/10, 0, 0⟩, ⟨51/10, 0, 0⟩], [(0, 1), (1, 2)], some ⟨10, 10, 10⟩⟩

/-- A four-atom chain reduced to two beads of two atoms each; the middle
bond crosses between the groups. -/
def exCGComp : Compound :=
  ⟨[⟨0, 0, 0⟩, ⟨1, 0, 0⟩, ⟨2, 0, 0⟩, ⟨3, 0, 0⟩], [(0, 1), (1, 2), (2, 3)], none⟩

/-- The two accepted chain-like matches of the `exCGComp` reduction. -/
def exCGBeads : List BeadMatch := [⟨[0, 1], "CCC", "_A"⟩, ⟨[2, 3], "CCC", "_A"⟩]

/-- Number of bonds stored between the endpoints of `e`, in either
orientation (used to state that bead pairs carry at most one bond). -/
def edgeCount (l : List (ℕ × ℕ)) (e : ℕ × ℕ) : ℕ :=
  (l.filter (fun q => decide (q = e ∨ q = (e.2, e.1)))).length

/-! ## Lemmas about the connected-component machinery -/

lemma floodFill_result_subset (adj : ℕ → Finset ℕ) :
    ∀ (fuel : ℕ) (nodes seen result : Finset ℕ),
      result ⊆ (floodFill adj fuel nodes seen result).1 := by
  intro fuel
  induction fuel with
  | zero => intro nodes seen result; simp [floodFill]
  | succ f ih =>
    intro nodes seen result
    by_cases h : nodes.Nonempty
    · simp only [floodFill, dif_pos h]
      exact (Finset.subset_insert _ _).trans (ih _ _ _)
    · simp [floodFill, dif_neg h]

lemma floodFill_spec (adj : ℕ → Finset ℕ) (K : Finset ℕ) (hadj : ∀ i, adj i ⊆ K) :
    ∀ (fuel : ℕ) (nodes seen result : Finset ℕ),
      (∀ x ∈ nodes, x ∉ seen) → result ⊆ seen → nodes ⊆ K →
      (floodFill adj fuel nodes seen result).2
          = seen ∪ ((floodFill adj fuel nodes seen result).1 \ result)
        ∧ (∀ x ∈ (floodFill adj fuel nodes seen result).1, x ∈ result ∨ x ∉ seen)
        ∧ (floodFill adj fuel nodes seen result).1 ⊆ result ∪ K := by
  intro fuel
  induction fuel with
  | zero =>
    intro nodes seen result h1 h2 h3
    simp only [floodFill]
    exact ⟨by simp, fun x hx => Or.inl hx, Finset.subset_union_left⟩
  | succ f ih =>
    intro nodes seen result h1 h2 h3
    by_cases h : nodes.Nonempty
    · simp only [floodFill, dif_pos h]
      have hn_mem : nodes.min' h ∈ nodes := Finset.min'_mem _ _
      have hn_not_seen : nodes.min' h ∉ seen := h1 _ hn_mem
      have hn_K : nodes.min' h ∈ K := h3 hn_mem
      have hn_not_result : nodes.min' h ∉ result := fun hc => hn_not_seen (h2 hc)
      have inv1 : ∀ x ∈ (nodes.erase (nodes.min' h))
          ∪ (adj (nodes.min' h) \ insert (nodes.min' h) seen),
          x ∉ insert (nodes.min' h) seen := by
        intro x hx
        rcases Finset.mem_union.mp hx with hx | hx
        · obtain ⟨hne, hmem⟩ := Finset.mem_erase.mp hx
          simp [Finset.mem_insert, hne, h1 _ hmem]
        · exact (Finset.mem_sdiff.mp hx).2
      have inv2 : insert (nodes.min' h) result ⊆ insert (nodes.min' h) seen :=
        Finset.insert_subset_insert _ h2
      have inv3 : (nodes.erase (nodes.min' h))
          ∪ (adj (nodes.min' h) \ insert (nodes.min' h) seen) ⊆ K := by
        apply Finset.union_subset
        · exact (Finset.erase_subset _ _).trans h3
        · exact (Finset.sdiff_subset).trans (hadj _)
      obtain ⟨ih1, ih3', ih4⟩ := ih _ _ _ inv1 inv2 inv3
      have ih2 := floodFill_result_subset adj f
        ((nodes.erase (nodes.min' h)) ∪ (adj (nodes.min' h) \ insert (nodes.min' h) seen))
        (insert (nodes.min' h) seen) (insert (nodes.min' h) result)
      have hn_out : nodes.min' h ∈ (floodFill adj f
          ((nodes.erase (nodes.min' h)) ∪ (adj (nodes.min' h) \ insert (nodes.min' h) seen))
          (insert (nodes.min' h) seen) (insert (nodes.min' h) result)).1 :=
        ih2 (Finset.mem_insert_self _ _)
      refine ⟨?_, ?_, ?_⟩
      · rw [ih1]
        ext x
        simp only [Finset.mem_union, Finset.mem_sdiff, Finset.mem_insert]
        constructor
        · rintro ((rfl | hx) | ⟨hx1, hx2⟩)
          · exact Or.inr ⟨hn_out, hn_not_result⟩
          · exact Or.inl hx
          · exact Or.inr ⟨hx1, fun hc => hx2 (Or.inr hc)⟩
        · rintro (hx | ⟨hx1, hx2⟩)
          · exact Or.inl (Or.inr hx)
          · by_cases hxn : x = nodes.min' h
            · exact Or.inl (Or.inl hxn)
            · exact Or.inr ⟨hx1, fun hc => hx2 (hc.resolve_left hxn)⟩
      · intro x hx
        rcases ih3' x hx with hx' | hx'
        · rcases Finset.mem_insert.mp hx' with rfl | hx''
          · exact Or.inr hn_not_seen
          · exact Or.inl hx''
        · exact Or.inr fun hc => hx' (Finset.mem_insert_of_mem hc)
      · intro x hx
        rcases Finset.mem_union.mp (ih4 hx) with hx' | hx'
        · rcases Finset.mem_insert.mp hx' with rfl | hx''
          · exact Finset.mem_union_right _ hn_K
          · exact Finset.mem_union_left _ hx''
        · exact Finset.mem_union_right _ hx'
    · simp only [floodFill, dif_neg h]
      exact ⟨by simp, fun x hx => Or.inl hx, Finset.subset_union_left⟩

lemma floodFill_singleton_mem (adj : ℕ → Finset ℕ) (fuel : ℕ) (seen : Finset ℕ) (k : ℕ) :
    k ∈ (floodFill adj (fuel + 1) {k} seen ∅).1 := by
  have h : ({k} : Finset ℕ).Nonempty := ⟨k, Finset.mem_singleton_self k⟩
  simp only [floodFill, dif_pos h]
  have hk : ({k} : Finset ℕ).min' h = k := by
    apply le_antisymm
    · exact Finset.min'_le _ _ (Finset.mem_singleton_self k)
    · exact Finset.le_min' _ _ _ (by simp)
  rw [hk]
  exact floodFill_result_subset adj fuel _ _ _ (Finset.mem_insert_self _ _)

lemma componentsLoop_spec (adj : ℕ → Finset ℕ) (K : Finset ℕ) (hadj : ∀ i, adj i ⊆ K)
    (fuel : ℕ) :
    ∀ (ks : List ℕ) (seen : Finset ℕ), (∀ k ∈ ks, k ∈ K) →
      List.Pairwise Disjoint (componentsLoop adj fuel ks seen)
      ∧ (∀ g ∈ componentsLoop adj fuel ks seen, Disjoint g seen)
      ∧ (∀ g ∈ componentsLoop adj fuel ks seen, g ⊆ K)
      ∧ (1 ≤ fuel → ∀ k ∈ ks, k ∈ seen ∨ ∃ g ∈ componentsLoop adj fuel ks seen, k ∈ g) := by
  intro ks
  induction ks with
  | nil => intro seen _; simp [componentsLoop]
  | cons k ks ih =>
    intro seen hks
    by_cases hk : k ∈ seen
    · simp only [componentsLoop, if_pos hk]
      obtain ⟨ih1, ih2, ih3, ih4⟩ := ih seen (fun x hx => hks x (List.mem_cons_of_mem _ hx))
      refine ⟨ih1, ih2, ih3, fun hf x hx => ?_⟩
      rcases List.mem_cons.mp hx with rfl | hx'
      · exact Or.inl hk
      · exact ih4 hf x hx'
    · simp only [componentsLoop, if_neg hk]
      have hsing : ∀ x ∈ ({k} : Finset ℕ), x ∉ seen := by
        intro x hx; rw [Finset.mem_singleton.mp hx]; exact hk
      have hsub : ({k} : Finset ℕ) ⊆ K := by
        intro x hx; rw [Finset.mem_singleton.mp hx]; exact hks k (List.mem_cons_self _ _)
      obtain ⟨f1, f2, f3⟩ := floodFill_spec adj K hadj fuel {k} seen ∅ hsing
        (Finset.empty_subset _) hsub
      have hdisj_seen : Disjoint (floodFill adj fuel {k} seen ∅).1 seen := by
        rw [Finset.disjoint_left]
        intro x hx
        rcases f2 x hx with hx' | hx'
        · exact absurd hx' (Finset.not_mem_empty x)
        · exact hx'
      have hseen' : (floodFill adj fuel {k} seen ∅).2
          = seen ∪ (floodFill adj fuel {k} seen ∅).1 := by
        rw [f1]; simp
      obtain ⟨ih1, ih2, ih3, ih4⟩ := ih (floodFill adj fuel {k} seen ∅).2
        (fun x hx => hks x (List.mem_cons_of_mem _ hx))
      refine ⟨?_, ?_, ?_, ?_⟩
      · refine List.Pairwise.cons ?_ ih1
        intro g hg
        have := ih2 g hg
        rw [hseen'] at this
        exact (Finset.disjoint_union_right.mp this).2.symm
      · intro g hg
        rcases List.mem_cons.mp hg with rfl | hg'
        · exact hdisj_seen
        · have := ih2 g hg'
          rw [hseen'] at this
          exact (Finset.disjoint_union_right.mp this).1
      · intro g hg
        rcases List.mem_cons.mp hg with rfl | hg'
        · intro x hx
          rcases Finset.mem_union.mp (f3 hx) with hx' | hx'
          · exact absurd hx' (Finset.not_mem_empty x)
          · exact hx'
        · exact ih3 g hg'
      · intro hf x hx
        rcases List.mem_cons.mp hx with rfl | hx'
        · obtain ⟨f, rfl⟩ : ∃ f, fuel = f + 1 := ⟨fuel - 1, by omega⟩
          exact Or.inr ⟨_, List.mem_cons_self _ _, floodFill_singleton_mem adj f seen x⟩
        · rcases ih4 hf x hx' with hx'' | hx''
          · rw [hseen'] at hx''
            rcases Finset.mem_union.mp hx'' with hx3 | hx3
            · exact Or.inl hx3
            · exact Or.inr ⟨_, List.mem_cons_self _ _, hx3⟩
          · obtain ⟨g, hg, hxg⟩ := hx''
            exact Or.inr ⟨g, List.mem_cons_of_mem _ hg, hxg⟩

lemma mem_foldl_keys (l : List ℕ) :
    ∀ (acc : List ℕ) (n : ℕ),
      n ∈ l.foldl (fun acc n => if n ∈ acc then acc else acc ++ [n]) acc
        ↔ n ∈ acc ∨ n ∈ l := by
  induction l with
  | nil => intro acc n; simp
  | cons a l ih =>
    intro acc n
    simp only [List.foldl_cons, ih, List.mem_cons]
    by_cases ha : a ∈ acc
    · simp only [if_pos ha]
      constructor
      · rintro (h | h)
        · exact Or.inl h
        · exact Or.inr (Or.inr h)
      · rintro (h | rfl | h)
        · exact Or.inl h
        · exact Or.inl ha
        · exact Or.inr h
    · simp only [if_neg ha, List.mem_append, List.mem_singleton]
      tauto

lemma mem_graphKeys (bonds : List (ℕ × ℕ)) (n : ℕ) :
    n ∈ graphKeys bonds ↔ ∃ p ∈ bonds, p.1 = n ∨ p.2 = n := by
  unfold graphKeys
  rw [mem_foldl_keys]
  simp only [List.not_mem_nil, false_or, List.mem_flatMap, List.mem_cons,
    List.not_mem_nil, List.mem_singleton]
  constructor
  · rintro ⟨p, hp, h | h | h⟩
    · exact ⟨p, hp, Or.inl h.symm⟩
    · exact ⟨p, hp, Or.inr h.symm⟩
    · exact absurd h (by simp)
  · rintro ⟨p, hp, h | h⟩
    · exact ⟨p, hp, Or.inl h.symm⟩
    · exact ⟨p, hp, Or.inr (Or.inl h.symm)⟩

lemma bondDict_subset_keys (bonds : List (ℕ × ℕ)) (i : ℕ) :
    bondDict bonds i ⊆ (graphKeys bonds).toFinset := by
  intro j hj
  rw [List.mem_toFinset, mem_graphKeys]
  unfold bondDict at hj
  rw [List.mem_toFinset, List.mem_append] at hj
  rcases hj with hj | hj
  · obtain ⟨p, hp, rfl⟩ := List.mem_map.mp hj
    exact ⟨p, (List.mem_filter.mp hp).1, Or.inr rfl⟩
  · obtain ⟨p, hp, rfl⟩ := List.mem_map.mp hj
    exact ⟨p, (List.mem_filter.mp hp).1, Or.inl rfl⟩

lemma floodFill_empty_nodes (adj : ℕ → Finset ℕ) :
    ∀ (fuel : ℕ) (seen result : Finset ℕ), floodFill adj fuel ∅ seen result = (result, seen) := by
  intro fuel seen result
  cases fuel with
  | zero => rfl
  | succ f => simp [floodFill, dif_neg Finset.not_nonempty_empty]

lemma isolated_not_mem_graphKeys (bonds : List (ℕ × ℕ)) (i : ℕ)
    (h : bondDict bonds i = ∅) : i ∉ graphKeys bonds := by
  intro hmem
  rw [mem_graphKeys] at hmem
  obtain ⟨p, hp, hcase⟩ := hmem
  refine Finset.ne_empty_of_mem (a := ?_) (s := bondDict bonds i) ?_ h
  · exact if p.1 = i then p.2 else p.1
  · unfold bondDict
    rw [List.mem_toFinset, List.mem_append]
    rcases hcase with h1 | h2
    · left
      rw [if_pos h1, List.mem_map]
      exact ⟨p, List.mem_filter.mpr ⟨hp, by simp [h1]⟩, rfl⟩
    · by_cases h1 : p.1 = i
      · left
        rw [if_pos h1, List.mem_map]
        exact ⟨p, List.mem_filter.mpr ⟨hp, by simp [h1]⟩, rfl⟩
      · right
        rw [if_neg h1, List.mem_map]
        exact ⟨p, List.mem_filter.mpr ⟨hp, by simp [h2]⟩, rfl⟩

lemma componentsLoop_isolated (adj : ℕ → Finset ℕ) (A : Finset ℕ) (hadj : ∀ j, adj j ⊆ A)
    (fuel : ℕ) (hfuel : 1 ≤ fuel) (i : ℕ) (hAdji : adj i = ∅) (hiA : i ∉ A) :
    ∀ (ks : List ℕ) (seen : Finset ℕ), i ∈ ks → i ∉ seen →
      {i} ∈ componentsLoop adj fuel ks seen := by
  intro ks
  induction ks with
  | nil => intro seen h; exact absurd h (List.not_mem_nil i)
  | cons k ks ih =>
    intro seen hmem hseen
    by_cases hki : k = i
    · subst hki
      simp only [componentsLoop, if_neg hseen]
      obtain ⟨f, rfl⟩ : ∃ f, fuel = f + 1 := ⟨fuel - 1, by omega⟩
      have hne : ({k} : Finset ℕ).Nonempty := ⟨k, Finset.mem_singleton_self k⟩
      have hout : (floodFill adj (f + 1) {k} seen ∅).1 = {k} := by
        simp only [floodFill, dif_pos hne]
        rw [Finset.min'_singleton]
        have hempty : ({k} : Finset ℕ).erase k ∪ (adj k \ insert k seen) = ∅ := by
          rw [Finset.erase_singleton, hAdji]
          simp
        rw [hempty, floodFill_empty_nodes]
        simp
      rw [hout]
      exact List.mem_cons_self _ _
    · by_cases hk : k ∈ seen
      · simp only [componentsLoop, if_pos hk]
        rcases List.mem_cons.mp hmem with rfl | h'
        · exact absurd hk hseen
        · exact ih seen h' hseen
      · simp only [componentsLoop, if_neg hk]
        have h' : i ∈ ks := by
          rcases List.mem_cons.mp hmem with rfl | h'
          · exact absurd rfl hki
          · exact h'
        refine List.mem_cons_of_mem _ (ih _ h' ?_)
        obtain ⟨hs1, hs3, hs4⟩ := floodFill_spec adj (insert k A)
          (fun j => (hadj j).trans (Finset.subset_insert _ _)) fuel {k} seen ∅
          (by intro x hx; rw [Finset.mem_singleton.mp hx]; exact hk)
          (Finset.empty_subset _)
          (by intro x hx; rw [Finset.mem_singleton.mp hx]; exact Finset.mem_insert_self _ _)
        rw [hs1]
        intro hcon
        rcases Finset.mem_union.mp hcon with hc | hc
        · exact hseen hc
        · have hin := hs4 (Finset.mem_sdiff.mp hc).1
          rcases Finset.mem_union.mp hin with h0 | hKA
          · exact absurd h0 (Finset.not_mem_empty i)
          · rcases Finset.mem_insert.mp hKA with rfl | hA
            · exact hki rfl
            · exact hiA hA

lemma findIdx_shifted {α : Type} (p : α → Bool) :
    ∀ (l : List α) (i s : ℕ) (a : α), l[i]? = some a → p a = true →
      (∀ j, j < i → ∀ b, l[j]? = some b → p b = false) →
      List.findIdx? p l s = some (s + i) := by
  intro l
  induction l with
  | nil => intro i s a ha; simp at ha
  | cons x xs ih =>
    intro i s a ha hpa hbefore
    cases i with
    | zero =>
      rw [List.getElem?_cons_zero] at ha
      rw [List.findIdx?_cons, if_pos (by rw [← Option.some_inj.mp ha] at hpa; exact hpa)]
      simp
    | succ j =>
      rw [List.getElem?_cons_succ] at ha
      have hx : p x = false := hbefore 0 (Nat.succ_pos j) x List.getElem?_cons_zero
      rw [List.findIdx?_cons, if_neg (by simp [hx])]
      have := ih j (s + 1) a ha hpa
        (fun k hk b hb => hbefore (k + 1) (Nat.succ_lt_succ hk) b
          (by rw [List.getElem?_cons_succ]; exact hb))
      rw [this]
      congr 1
      omega

lemma getMolecules_pairwise_disjoint (c : Compound) :
    List.Pairwise Disjoint c.getMolecules := by
  have hadj : ∀ i, bondDict c.bonds i
      ⊆ Finset.range c.pos.length ∪ (graphKeys c.bonds).toFinset :=
    fun i => (bondDict_subset_keys c.bonds i).trans Finset.subset_union_right
  have hks : ∀ k ∈ List.range c.pos.length,
      k ∈ Finset.range c.pos.length ∪ (graphKeys c.bonds).toFinset := by
    intro k hk
    exact Finset.mem_union_left _ (Finset.mem_range.mpr (List.mem_range.mp hk))
  exact (componentsLoop_spec (bondDict c.bonds) _ hadj _ (List.range c.pos.length) ∅ hks).1

lemma firstMolIdx_of_mem (mols : List (Finset ℕ)) (hdisj : List.Pairwise Disjoint mols)
    (midx : ℕ) (m : Finset ℕ) (hm : mols[midx]? = some m) (o : ℕ) (ho : o ∈ m) :
    firstMolIdx mols o = some midx := by
  unfold firstMolIdx
  have := findIdx_shifted (fun m' => decide (o ∈ m')) mols midx 0 m hm
    (decide_eq_true ho) ?_
  · rw [this]
    simp
  · intro j hj b hb
    have hjlen : j < mols.length := by
      rcases List.getElem?_eq_some_iff.mp hb with ⟨h, _⟩
      exact h
    have hmlen : midx < mols.length := by
      rcases List.getElem?_eq_some_iff.mp hm with ⟨h, _⟩
      exact h
    have hdis : Disjoint mols[j] mols[midx] :=
      List.pairwise_iff_getElem.mp hdisj j midx hjlen hmlen hj
    have hb' : mols[j] = b := by
      have := List.getElem?_eq_getElem hjlen
      rw [this] at hb
      exact Option.some_inj.mp hb
    have hm' : mols[midx] = m := by
      have := List.getElem?_eq_getElem hmlen
      rw [this] at hm
      exact Option.some_inj.mp hm
    rw [hb', hm'] at hdis
    simp only [decide_eq_false_iff_not]
    exact Finset.disjoint_right.mp hdis ho

/-- C7 (amended): molecules returned by the snapshot-level `get_molecules`
are pairwise disjoint and their union is exactly the set of particle
indices incident to at least one bond — isolated particles are omitted,
not returned as singletons.  For `CG_Compound.get_molecules` (backed by
the external mbuild bond graph, in which every particle is a node), with
well-formed bonds the molecules are pairwise disjoint, their union is
the full particle index set, and every particle with no bond neighbors
occurs as the singleton molecule containing just itself. -/
theorem getMolecules_partition :
    (∀ bonds : List (ℕ × ℕ),
      List.Pairwise Disjoint (getMoleculesSnap bonds)
        ∧ ∀ i : ℕ, (∃ g ∈ getMoleculesSnap bonds, i ∈ g)
            ↔ ∃ p ∈ bonds, p.1 = i ∨ p.2 = i)
    ∧ ∀ c : Compound,
        (∀ p ∈ c.bonds, p.1 < c.pos.length ∧ p.2 < c.pos.length) →
        List.Pairwise Disjoint c.getMolecules
          ∧ (∀ i : ℕ, (∃ g ∈ c.getMolecules, i ∈ g) ↔ i < c.pos.length)
          ∧ (∀ i : ℕ, i < c.pos.length → bondDict c.bonds i = ∅ → {i} ∈ c.getMolecules) := by
  constructor
  · intro bonds
    have hks : ∀ k ∈ graphKeys bonds, k ∈ (graphKeys bonds).toFinset :=
      fun k hk => List.mem_toFinset.mpr hk
    obtain ⟨h1, h2, h3, h4⟩ := componentsLoop_spec (bondDict bonds) _
      (bondDict_subset_keys bonds) ((graphKeys bonds).length + 1) (graphKeys bonds) ∅ hks
    refine ⟨h1, fun i => ⟨?_, ?_⟩⟩
    · rintro ⟨g, hg, hig⟩
      have := h3 g hg hig
      rw [List.mem_toFinset, mem_graphKeys] at this
      exact this
    · intro hb
      have hkey : i ∈ graphKeys bonds := (mem_graphKeys bonds i).mpr hb
      rcases h4 (by omega) i hkey with hc | hc
      · exact absurd hc (Finset.not_mem_empty i)
      · exact hc
  · intro c hwf
    have hadj : ∀ i, bondDict c.bonds i ⊆ Finset.range c.pos.length := by
      intro i j hj
      unfold bondDict at hj
      rw [List.mem_toFinset, List.mem_append] at hj
      rcases hj with hj | hj
      · obtain ⟨p, hp, rfl⟩ := List.mem_map.mp hj
        exact Finset.mem_range.mpr (hwf p (List.mem_filter.mp hp).1).2
      · obtain ⟨p, hp, rfl⟩ := List.mem_map.mp hj
        exact Finset.mem_range.mpr (hwf p (List.mem_filter.mp hp).1).1
    have hks : ∀ k ∈ List.range c.pos.length, k ∈ Finset.range c.pos.length :=
      fun k hk => Finset.mem_range.mpr (List.mem_range.mp hk)
    obtain ⟨h1, h2, h3, h4⟩ := componentsLoop_spec (bondDict c.bonds) _
      hadj (c.pos.length + 2 * c.bonds.length + 1) (List.range c.pos.length) ∅ hks
    refine ⟨h1, fun i => ⟨?_, ?_⟩, ?_⟩
    · rintro ⟨g, hg, hig⟩
      exact Finset.mem_range.mp (h3 g hg hig)
    · intro hi
      rcases h4 (by omega) i (List.mem_range.mpr hi) with hc | hc
      · exact absurd hc (Finset.not_mem_empty i)
      · exact hc
    · intro i hi hiso
      exact componentsLoop_isolated (bondDict c.bonds) ((graphKeys c.bonds).toFinset)
        (bondDict_subset_keys c.bonds) (c.pos.length + 2 * c.bonds.length + 1) (by omega)
        i hiso (fun hmem => isolated_not_mem_graphKeys c.bonds i hiso
          (List.mem_toFinset.mp hmem))
        (List.range c.pos.length) ∅ (List.mem_range.mpr hi) (Finset.not_mem_empty i)

/-- C7 witness: the partition theorem applied to a concrete compound with
two bonded particles and one isolated particle (which forms the
singleton molecule `{2}`). -/
theorem getMolecules_partition_witness :
    (∀ p ∈ [((0 : ℕ), (1 : ℕ))], p.1 < 3 ∧ p.2 < 3)
      ∧ (List.Pairwise Disjoint (Compound.getMolecules ⟨[⟨0,0,0⟩, ⟨1,0,0⟩, ⟨5,0,0⟩], [(0,1)], none⟩)
          ∧ (∀ i : ℕ, (∃ g ∈ Compound.getMolecules ⟨[⟨0,0,0⟩, ⟨1,0,0⟩, ⟨5,0,0⟩], [(0,1)], none⟩, i ∈ g)
              ↔ i < (3 : ℕ))
          ∧ (∀ i : ℕ, i < (3 : ℕ) → bondDict [(0, 1)] i = ∅ →
              {i} ∈ Compound.getMolecules ⟨[⟨0,0,0⟩, ⟨1,0,0⟩, ⟨5,0,0⟩], [(0,1)], none⟩)) := by
  refine ⟨by decide, ?_⟩
  have := getMolecules_partition.2 ⟨[⟨0,0,0⟩, ⟨1,0,0⟩, ⟨5,0,0⟩], [(0,1)], none⟩ (by decide)
  exact this

/-- C7 counterexample: a snapshot holding a single particle (index 0) and
no bonds.  The claim demands that the isolated particle appear as the
singleton molecule `{0}`; the snapshot-level `get_molecules` returns the
empty list, so particle 0 lies in no returned molecule. -/
theorem getMoleculesSnap_isolated_cex :
    getMoleculesSnap [] = [] ∧ ¬ ∃ g ∈ getMoleculesSnap [], (0 : ℕ) ∈ g := by
  constructor
  · rfl
  · rintro ⟨g, hg, _⟩
    rw [show getMoleculesSnap [] = [] from rfl] at hg
    exact absurd hg (List.not_mem_nil g)

/-! ## Geometry evaluation helpers -/

lemma dist3_eq_ratCast (p q : Vec3) (r : ℚ) (hr : 0 ≤ r) (h : sqNorm (vsub p q) = r ^ 2) :
    dist3 p q = (r : ℝ) := by
  unfold dist3
  rw [h]
  push_cast
  exact Real.sqrt_sq (by exact_mod_cast hr)

lemma imgComp_eq (d L : ℚ) (hL : 0 < L) :
    imgComp d L = if d > L / 2 then 1 else if d < -(L / 2) then -1 else 0 := by
  unfold imgComp
  by_cases h1 : d > L / 2
  · rw [if_pos h1, if_pos h1, if_neg (by linarith), add_zero]
  · rw [if_neg h1, if_neg h1, zero_add]

/-- C1 (amended): the relocation phase of `unwrap` moves every classified
outlier particle to the periodic unwrap of its position with exactly the
claimed image vector, computed per axis from the centroid of its
molecule's non-outlier particles (the anchor).  The scenario part of the
claim is false (see the counterexample): on the two-atom molecule the
repair aborts with the ambiguous-classification error instead of moving
atom B. -/
theorem relocate_unwraps_outliers (c : Compound) (outliers : Finset ℕ) (b : Vec3)
    (i midx : ℕ) (m : Finset ℕ)
    (hb : 0 < b.x ∧ 0 < b.y ∧ 0 < b.z)
    (hi : i ∈ outliers)
    (hlen : i < c.pos.length)
    (hfind : firstMolIdx c.getMolecules i = some midx)
    (hm : c.getMolecules[midx]? = some m)
    (_hanchor : (m \ outliers).Nonempty) :
    posOf (relocate c c.getMolecules outliers b) i
      = specRelocatedPos c (m \ outliers) b i := by
  have hpos : posOf (relocate c c.getMolecules outliers b) i
      = relocatePos c c.getMolecules outliers b i := by
    unfold posOf relocate
    simp only []
    rw [List.getD_eq_getElem?_getD, List.getElem?_map, List.getElem?_range hlen]
    rfl
  have hassign : m \ (outliers.filter
        (fun o => firstMolIdx c.getMolecules o = some midx)) = m \ outliers := by
    ext x
    simp only [Finset.mem_sdiff, Finset.mem_filter]
    constructor
    · rintro ⟨hxm, hno⟩
      refine ⟨hxm, fun hxo => hno ⟨hxo, ?_⟩⟩
      exact firstMolIdx_of_mem _ (getMolecules_pairwise_disjoint c) midx m hm x hxm
    · rintro ⟨hxm, hxo⟩
      exact ⟨hxm, fun hc => hxo hc.1⟩
  rw [hpos]
  unfold relocatePos
  simp only [if_pos hi, hfind, hm]
  rw [hassign]
  unfold unwrapPos imgVec specRelocatedPos
  simp only []
  rw [imgComp_eq _ _ hb.1, imgComp_eq _ _ hb.2.1, imgComp_eq _ _ hb.2.2]

/-- C1 witness: the relocation theorem applied to `exAnchor3` with
outlier set `{2}` inside a 10-cube. -/
theorem relocate_unwraps_outliers_witness :
    ((0 : ℚ) < 10 ∧ (0 : ℚ) < 10 ∧ (0 : ℚ) < 10)
      ∧ 2 ∈ ({2} : Finset ℕ)
      ∧ 2 < exAnchor3.pos.length
      ∧ firstMolIdx exAnchor3.getMolecules 2 = some 0
      ∧ exAnchor3.getMolecules[0]? = some {0, 1, 2}
      ∧ (({0, 1, 2} : Finset ℕ) \ {2}).Nonempty
      ∧ posOf (relocate exAnchor3 exAnchor3.getMolecules {2} ⟨10, 10, 10⟩) 2
          = specRelocatedPos exAnchor3 (({0, 1, 2} : Finset ℕ) \ {2}) ⟨10, 10, 10⟩ 2 :=
  ⟨⟨by norm_num, by norm_num, by norm_num⟩, by decide, by decide, by decide,
    by rw [show exAnchor3.getMolecules = [{0, 1, 2}] from by decide]; rfl,
    by decide,
    relocate_unwraps_outliers exAnchor3 {2} ⟨10, 10, 10⟩ 2 0 {0, 1, 2}
      ⟨by norm_num, by norm_num, by norm_num⟩ (by decide) (by decide) (by decide)
      (by rw [show exAnchor3.getMolecules = [{0, 1, 2}] from by decide]; rfl) (by decide)⟩


/-! ## Evaluation helpers for concrete molecules -/

lemma centroid_pair (c : Compound) (a b : ℕ) (h : a ≠ b) :
    centroid c {a, b} =
      ⟨((posOf c a).x + (posOf c b).x) / 2,
       ((posOf c a).y + (posOf c b).y) / 2,
       ((posOf c a).z + (posOf c b).z) / 2⟩ := by
  unfold centroid
  simp only [Finset.sum_insert (show a ∉ ({b} : Finset ℕ) by simp [h]),
    Finset.sum_singleton,
    Finset.card_insert_of_not_mem (show a ∉ ({b} : Finset ℕ) by simp [h]),
    Finset.card_singleton]
  norm_num

lemma centroid_triple (c : Compound) (a b d : ℕ) (hab : a ≠ b) (had : a ≠ d) (hbd : b ≠ d) :
    centroid c {a, b, d} =
      ⟨((posOf c a).x + ((posOf c b).x + (posOf c d).x)) / 3,
       ((posOf c a).y + ((posOf c b).y + (posOf c d).y)) / 3,
       ((posOf c a).z + ((posOf c b).z + (posOf c d).z)) / 3⟩ := by
  unfold centroid
  simp only [Finset.sum_insert (show a ∉ ({b, d} : Finset ℕ) by simp [hab, had]),
    Finset.sum_insert (show b ∉ ({d} : Finset ℕ) by simp [hbd]),
    Finset.sum_singleton,
    Finset.card_insert_of_not_mem (show a ∉ ({b, d} : Finset ℕ) by simp [hab, had]),
    Finset.card_insert_of_not_mem (show b ∉ ({d} : Finset ℕ) by simp [hbd]),
    Finset.card_singleton]
  norm_num

lemma centroid_quad (c : Compound) (a b d e : ℕ) (hab : a ≠ b) (had : a ≠ d)
    (hae : a ≠ e) (hbd : b ≠ d) (hbe : b ≠ e) (hde : d ≠ e) :
    centroid c {a, b, d, e} =
      ⟨((posOf c a).x + ((posOf c b).x + ((posOf c d).x + (posOf c e).x))) / 4,
       ((posOf c a).y + ((posOf c b).y + ((posOf c d).y + (posOf c e).y))) / 4,
       ((posOf c a).z + ((posOf c b).z + ((posOf c d).z + (posOf c e).z))) / 4⟩ := by
  unfold centroid
  simp only [Finset.sum_insert (show a ∉ ({b, d, e} : Finset ℕ) by simp [hab, had, hae]),
    Finset.sum_insert (show b ∉ ({d, e} : Finset ℕ) by simp [hbd, hbe]),
    Finset.sum_insert (show d ∉ ({e} : Finset ℕ) by simp [hde]),
    Finset.sum_singleton,
    Finset.card_insert_of_not_mem (show a ∉ ({b, d, e} : Finset ℕ) by simp [hab, had, hae]),
    Finset.card_insert_of_not_mem (show b ∉ ({d, e} : Finset ℕ) by simp [hbd, hbe]),
    Finset.card_insert_of_not_mem (show d ∉ ({e} : Finset ℕ) by simp [hde]),
    Finset.card_singleton]
  norm_num

lemma avgDist_singleton (c : Compound) (a : ℕ) : avgDist c {a} = 0 := by
  unfold avgDist centroid
  simp only [Finset.sum_singleton, Finset.card_singleton, Nat.cast_one]
  rw [show dist3 (posOf c a)
      ⟨(posOf c a).x / 1, (posOf c a).y / 1, (posOf c a).z / 1⟩ = ((0 : ℚ) : ℝ) from
    dist3_eq_ratCast _ _ 0 le_rfl (by unfold sqNorm vsub; norm_num)]
  norm_num

lemma avgDist_pair (c : Compound) (a b : ℕ) (h : a ≠ b) :
    avgDist c {a, b} =
      (dist3 (posOf c a) (centroid c {a, b}) + dist3 (posOf c b) (centroid c {a, b})) / 2 := by
  unfold avgDist
  simp only [Finset.sum_insert (show a ∉ ({b} : Finset ℕ) by simp [h]),
    Finset.sum_singleton,
    Finset.card_insert_of_not_mem (show a ∉ ({b} : Finset ℕ) by simp [h]),
    Finset.card_singleton]
  norm_num

lemma avgDist_triple (c : Compound) (a b d : ℕ) (hab : a ≠ b) (had : a ≠ d) (hbd : b ≠ d) :
    avgDist c {a, b, d} =
      (dist3 (posOf c a) (centroid c {a, b, d}) + (dist3 (posOf c b) (centroid c {a, b, d})
        + dist3 (posOf c d) (centroid c {a, b, d}))) / 3 := by
  unfold avgDist
  simp only [Finset.sum_insert (show a ∉ ({b, d} : Finset ℕ) by simp [hab, had]),
    Finset.sum_insert (show b ∉ ({d} : Finset ℕ) by simp [hbd]),
    Finset.sum_singleton,
    Finset.card_insert_of_not_mem (show a ∉ ({b, d} : Finset ℕ) by simp [hab, had]),
    Finset.card_insert_of_not_mem (show b ∉ ({d} : Finset ℕ) by simp [hbd]),
    Finset.card_singleton]
  norm_num

lemma avgDist_quad (c : Compound) (a b d e : ℕ) (hab : a ≠ b) (had : a ≠ d)
    (hae : a ≠ e) (hbd : b ≠ d) (hbe : b ≠ e) (hde : d ≠ e) :
    avgDist c {a, b, d, e} =
      (dist3 (posOf c a) (centroid c {a, b, d, e}) + (dist3 (posOf c b) (centroid c {a, b, d, e})
        + (dist3 (posOf c d) (centroid c {a, b, d, e})
          + dist3 (posOf c e) (centroid c {a, b, d, e})))) / 4 := by
  unfold avgDist
  simp only [Finset.sum_insert (show a ∉ ({b, d, e} : Finset ℕ) by simp [hab, had, hae]),
    Finset.sum_insert (show b ∉ ({d, e} : Finset ℕ) by simp [hbd, hbe]),
    Finset.sum_insert (show d ∉ ({e} : Finset ℕ) by simp [hde]),
    Finset.sum_singleton,
    Finset.card_insert_of_not_mem (show a ∉ ({b, d, e} : Finset ℕ) by simp [hab, had, hae]),
    Finset.card_insert_of_not_mem (show b ∉ ({d, e} : Finset ℕ) by simp [hbd, hbe]),
    Finset.card_insert_of_not_mem (show d ∉ ({e} : Finset ℕ) by simp [hde]),
    Finset.card_singleton]
  norm_num

/-! ## Concrete evaluation: the two-atom scenario -/

lemma exTwoAtom_mols : exTwoAtom.getMolecules = [{0, 1}] := by decide

lemma exTwoAtom_pos0 : posOf exTwoAtom 0 = ⟨1/10, 0, 0⟩ := rfl

lemma exTwoAtom_pos1 : posOf exTwoAtom 1 = ⟨99/10, 0, 0⟩ := rfl

lemma exTwoAtom_avg01 : avgDist exTwoAtom {0, 1} = ((49/10 : ℚ) : ℝ) := by
  rw [avgDist_pair _ 0 1 (by decide), centroid_pair _ 0 1 (by decide),
    exTwoAtom_pos0, exTwoAtom_pos1]
  rw [dist3_eq_ratCast _ _ (49/10) (by norm_num) (by unfold sqNorm vsub; norm_num),
    dist3_eq_ratCast _ _ (49/10) (by norm_num) (by unfold sqNorm vsub; norm_num)]
  push_cast
  norm_num

lemma exTwoAtom_isOutlier_0 : isOutlier exTwoAtom [{0, 1}] 0 := by
  unfold isOutlier
  rw [show lastMolOf [{0, 1}] 0 = some {0, 1} from by decide]
  show avgDist exTwoAtom {0, 1} > avgDist exTwoAtom (({0, 1} : Finset ℕ).erase 0)
  rw [show ({0, 1} : Finset ℕ).erase 0 = {1} from by decide]
  rw [exTwoAtom_avg01, avgDist_singleton]
  push_cast
  norm_num

lemma exTwoAtom_isOutlier_1 : isOutlier exTwoAtom [{0, 1}] 1 := by
  unfold isOutlier
  rw [show lastMolOf [{0, 1}] 1 = some {0, 1} from by decide]
  show avgDist exTwoAtom {0, 1} > avgDist exTwoAtom (({0, 1} : Finset ℕ).erase 1)
  rw [show ({0, 1} : Finset ℕ).erase 1 = {0} from by decide]
  rw [exTwoAtom_avg01, avgDist_singleton]
  push_cast
  norm_num

lemma exTwoAtom_dToCenter_0 : dToCenter exTwoAtom [{0, 1}] 0 = ((49/10 : ℚ) : ℝ) := by
  unfold dToCenter
  rw [show lastMolOf [{0, 1}] 0 = some {0, 1} from by decide]
  show dist3 (posOf exTwoAtom 0) (centroid exTwoAtom {0, 1}) = ((49/10 : ℚ) : ℝ)
  rw [centroid_pair _ 0 1 (by decide), exTwoAtom_pos0, exTwoAtom_pos1]
  exact dist3_eq_ratCast _ _ (49/10) (by norm_num) (by unfold sqNorm vsub; norm_num)

lemma exTwoAtom_dToCenter_1 : dToCenter exTwoAtom [{0, 1}] 1 = ((49/10 : ℚ) : ℝ) := by
  unfold dToCenter
  rw [show lastMolOf [{0, 1}] 1 = some {0, 1} from by decide]
  show dist3 (posOf exTwoAtom 1) (centroid exTwoAtom {0, 1}) = ((49/10 : ℚ) : ℝ)
  rw [centroid_pair _ 0 1 (by decide), exTwoAtom_pos0, exTwoAtom_pos1]
  exact dist3_eq_ratCast _ _ (49/10) (by norm_num) (by unfold sqNorm vsub; norm_num)

lemma exTwoAtom_classify :
    classifyBond exTwoAtom [{0, 1}] (∅, ∅) (0, 1) = .error (.ambiguous 0 1) := by
  unfold classifyBond
  split
  · split
    · rename_i hgt
      rw [exTwoAtom_dToCenter_0, exTwoAtom_dToCenter_1] at hgt
      exact absurd hgt (lt_irrefl _)
    · split
      · rename_i hgt
        rw [exTwoAtom_dToCenter_0, exTwoAtom_dToCenter_1] at hgt
        exact absurd hgt (lt_irrefl _)
      · rfl
  · rename_i hno
    exact absurd ⟨exTwoAtom_isOutlier_0, exTwoAtom_isOutlier_1⟩ hno

lemma exTwoAtom_badBonds : badBonds exTwoAtom (11/50) = [(0, 1)] := by
  have hcond : dist3 (posOf exTwoAtom 0) (posOf exTwoAtom 1) > (((11/50 : ℚ) : ℚ) : ℝ) := by
    rw [exTwoAtom_pos0, exTwoAtom_pos1,
      dist3_eq_ratCast _ _ (49/5) (by norm_num) (by unfold sqNorm vsub; norm_num)]
    push_cast
    norm_num
  unfold badBonds
  rw [show exTwoAtom.bonds = [(0, 1)] from rfl]
  simp only [List.filter_cons, List.filter_nil, decide_eq_true_eq]
  rw [if_pos hcond]

lemma exTwoAtom_findOutliers :
    findOutliers exTwoAtom [{0, 1}] [(0, 1)] = .error (.ambiguous 0 1) := by
  unfold findOutliers
  rw [List.foldlM_cons, exTwoAtom_classify]
  rfl

lemma exTwoAtom_onePass : onePass (11/50) exTwoAtom = .error (.ambiguous 0 1) := by
  unfold onePass
  simp only [exTwoAtom_mols, exTwoAtom_badBonds]
  rw [if_neg (show ¬([((0 : ℕ), (1 : ℕ))] = []) from by simp)]
  rw [exTwoAtom_findOutliers]

/-- C1 counterexample: on the spec's two-atom scenario (cubic box of side
10, atoms at `(0.1,0,0)` and `(9.9,0,0)`, tolerance `0.22 < 9.8`) the
code does not move atom B to `(-0.1,0,0)`: both atoms test as outliers
and are exactly equidistant (4.9) from the molecule centroid `(5,0,0)`,
so `unwrap` raises the ambiguous-classification `RuntimeError` naming
indices 0 and 1, and no position is changed. -/
theorem unwrap_twoAtom_ambiguous_cex :
    Compound.unwrap exTwoAtom (11/50) = .error (.ambiguous 0 1)
      ∧ ∀ r, Compound.unwrap exTwoAtom (11/50) ≠ .ok r := by
  have h : Compound.unwrap exTwoAtom (11/50) = .error (.ambiguous 0 1) := by
    unfold Compound.unwrap
    unfold unwrapAux
    rw [exTwoAtom_onePass]
  exact ⟨h, fun r hr => by rw [h] at hr; exact Except.noConfusion hr⟩

/-! ## Structure of the retry loop -/

lemma onePass_cases (tol : ℚ) (c : Compound) :
    (badBonds c tol = [] ∧ onePass tol c = .ok (.clean c))
    ∨ (badBonds c tol ≠ [] ∧ (
        (∃ e, onePass tol c = .error e)
        ∨ (∃ d, (onePass tol c = .ok (.fixed d) ∧ badBonds d tol = [])
              ∨ (onePass tol c = .ok (.remaining d) ∧ badBonds d tol ≠ [])))) := by
  unfold onePass
  by_cases hbb : badBonds c tol = []
  · rw [if_pos hbb]
    exact Or.inl ⟨hbb, rfl⟩
  · rw [if_neg hbb]
    refine Or.inr ⟨hbb, ?_⟩
    rcases hfo : findOutliers c c.getMolecules (badBonds c tol) with e | outliers
    · simp only [hfo]
      exact Or.inl ⟨e, rfl⟩
    · simp only [hfo]
      by_cases hass : Finset.filter
          (fun o => (firstMolIdx c.getMolecules o).isSome = true) outliers = ∅
      · rw [if_pos hass, if_neg hbb]
        exact Or.inr ⟨c, Or.inr ⟨rfl, hbb⟩⟩
      · rw [if_neg hass]
        rcases hbox : c.box with _ | b
        · simp only [hbox]
          exact Or.inl ⟨_, rfl⟩
        · simp only [hbox]
          by_cases hb2 : badBonds (relocate c c.getMolecules outliers b) tol = []
          · rw [if_pos hb2]
            exact Or.inr ⟨_, Or.inl ⟨rfl, hb2⟩⟩
          · rw [if_neg hb2]
            exact Or.inr ⟨_, Or.inr ⟨rfl, hb2⟩⟩

lemma onePass_ok_clean (tol : ℚ) (c d : Compound) (h : onePass tol c = .ok (.clean d)) :
    d = c ∧ badBonds c tol = [] := by
  rcases onePass_cases tol c with ⟨hbb, heq⟩ | ⟨hbb, hcase⟩
  · have := heq.symm.trans h
    simp only [Except.ok.injEq, PassOut.clean.injEq] at this
    exact ⟨this.symm, hbb⟩
  · exfalso
    rcases hcase with ⟨e, heq⟩ | ⟨d', hd'⟩
    · rw [heq] at h
      exact Except.noConfusion h
    · rcases hd' with ⟨heq, _⟩ | ⟨heq, _⟩ <;>
        · have := heq.symm.trans h
          simp at this

lemma onePass_ok_fixed (tol : ℚ) (c d : Compound) (h : onePass tol c = .ok (.fixed d)) :
    badBonds d tol = [] := by
  rcases onePass_cases tol c with ⟨hbb, heq⟩ | ⟨hbb, hcase⟩
  · have := heq.symm.trans h
    simp at this
  · rcases hcase with ⟨e, heq⟩ | ⟨d', hd'⟩
    · rw [heq] at h
      exact Except.noConfusion h
    · rcases hd' with ⟨heq, h2⟩ | ⟨heq, h2⟩
      · have := heq.symm.trans h
        simp only [Except.ok.injEq, PassOut.fixed.injEq] at this
        rw [← this]
        exact h2
      · have := heq.symm.trans h
        simp at this

lemma unwrapAux_passes (tol : ℚ) :
    ∀ (n count : ℕ) (c : Compound) (r : UnwrapResult), 5 - count ≤ n → count ≤ 5 →
      unwrapAux tol count c = .ok r → r.passes ≤ 6 - count := by
  intro n
  induction n with
  | zero =>
    intro count c r hn hc h
    have hc5 : count = 5 := by omega
    subst hc5
    unfold unwrapAux at h
    split at h
    · exact Except.noConfusion h
    · simp only [Except.ok.injEq] at h
      subst h
      show (1 : ℕ) ≤ 6 - 5
      omega
    · simp only [Except.ok.injEq] at h
      subst h
      show (1 : ℕ) ≤ 6 - 5
      omega
    · rw [dif_neg (by omega)] at h
      simp only [Except.ok.injEq] at h
      subst h
      show (1 : ℕ) ≤ 6 - 5
      omega
  | succ n ih =>
    intro count c r hn hc h
    unfold unwrapAux at h
    split at h
    · exact Except.noConfusion h
    · simp only [Except.ok.injEq] at h
      subst h
      show (1 : ℕ) ≤ 6 - count
      omega
    · simp only [Except.ok.injEq] at h
      subst h
      show (1 : ℕ) ≤ 6 - count
      omega
    · rename_i c' _
      by_cases hlt : count < 5
      · rw [dif_pos hlt] at h
        rcases hrec : unwrapAux tol (count + 1) c' with e | r'
        · rw [hrec] at h
          exact Except.noConfusion h
        · rw [hrec] at h
          simp only [Except.ok.injEq] at h
          have hle := ih (count + 1) c' r' (by omega) (by omega) hrec
          subst h
          show r'.passes + 1 ≤ 6 - count
          omega
      · rw [dif_neg hlt] at h
        simp only [Except.ok.injEq] at h
        subst h
        show (1 : ℕ) ≤ 6 - count
        omega

/-- C3: `unwrap` always terminates in at most `retry_limit + 1 = 6`
scan-and-relocate passes (the counter starts at `count`, fixed limit 5):
a successful run from counter value `count ≤ 5` performs at most
`6 - count` passes; when bad bonds remain after a pass and the counter is
below 5 the whole repair restarts with the counter incremented on the
updated positions, and when the counter has reached 5 with bad bonds
still present it stops with the `limitExceeded` report, keeping the
best-effort relocated positions. -/
theorem unwrap_retry_bounded (tol : ℚ) (c : Compound) (count : ℕ) (hcount : count ≤ 5) :
    (∀ r, unwrapAux tol count c = .ok r → r.passes ≤ 6 - count)
    ∧ (∀ c', onePass tol c = .ok (.remaining c') → count < 5 →
        unwrapAux tol count c
          = match unwrapAux tol (count + 1) c' with
            | .error e => .error e
            | .ok r => .ok ⟨r.comp, r.status, r.passes + 1⟩)
    ∧ (∀ c', onePass tol c = .ok (.remaining c') → count = 5 →
        unwrapAux tol count c = .ok ⟨c', .limitExceeded, 1⟩) := by
  refine ⟨fun r h => unwrapAux_passes tol (5 - count) count c r le_rfl hcount h, ?_, ?_⟩
  · intro c' hp hlt
    conv_lhs => rw [unwrapAux]
    simp only [hp]
    rw [dif_pos hlt]
  · intro c' hp hc5
    subst hc5
    conv_lhs => rw [unwrapAux]
    simp only [hp]
    rw [dif_neg (by omega)]

/-- C3 witness: the retry-bound theorem applied at counter 0 on a
concrete (empty) compound. -/
theorem unwrap_retry_bounded_witness :
    (0 : ℕ) ≤ 5
    ∧ ((∀ r, unwrapAux 1 0 ⟨[], [], none⟩ = .ok r → r.passes ≤ 6 - 0)
      ∧ (∀ c', onePass 1 ⟨[], [], none⟩ = .ok (.remaining c') → 0 < 5 →
          unwrapAux 1 0 ⟨[], [], none⟩
            = match unwrapAux 1 (0 + 1) c' with
              | .error e => .error e
              | .ok r => .ok ⟨r.comp, r.status, r.passes + 1⟩)
      ∧ (∀ c', onePass 1 ⟨[], [], none⟩ = .ok (.remaining c') → 0 = 5 →
          unwrapAux 1 0 ⟨[], [], none⟩ = .ok ⟨c', .limitExceeded, 1⟩)) :=
  ⟨by decide, unwrap_retry_bounded 1 ⟨[], [], none⟩ 0 (by decide)⟩

lemma unwrapAux_success_no_bad (tol : ℚ) :
    ∀ (n count : ℕ) (c : Compound) (r : UnwrapResult), 5 - count ≤ n →
      unwrapAux tol count c = .ok r → r.status ≠ .limitExceeded →
      badBonds r.comp tol = [] := by
  intro n
  induction n with
  | zero =>
    intro count c r hn h hs
    unfold unwrapAux at h
    split at h
    · exact Except.noConfusion h
    · rename_i c' heq
      simp only [Except.ok.injEq] at h
      subst h
      obtain ⟨hd, hbb⟩ := onePass_ok_clean tol c c' heq
      show badBonds c' tol = []
      rw [hd]
      exact hbb
    · rename_i c' heq
      simp only [Except.ok.injEq] at h
      subst h
      show badBonds c' tol = []
      exact onePass_ok_fixed tol c c' heq
    · rw [dif_neg (by omega)] at h
      simp only [Except.ok.injEq] at h
      subst h
      exact absurd rfl hs
  | succ n ih =>
    intro count c r hn h hs
    unfold unwrapAux at h
    split at h
    · exact Except.noConfusion h
    · rename_i c' heq
      simp only [Except.ok.injEq] at h
      subst h
      obtain ⟨hd, hbb⟩ := onePass_ok_clean tol c c' heq
      show badBonds c' tol = []
      rw [hd]
      exact hbb
    · rename_i c' heq
      simp only [Except.ok.injEq] at h
      subst h
      show badBonds c' tol = []
      exact onePass_ok_fixed tol c c' heq
    · rename_i c' heq
      by_cases hlt : count < 5
      · rw [dif_pos hlt] at h
        rcases hrec : unwrapAux tol (count + 1) c' with e | r'
        · rw [hrec] at h
          exact Except.noConfusion h
        · rw [hrec] at h
          simp only [Except.ok.injEq] at h
          subst h
          show badBonds r'.comp tol = []
          exact ih (count + 1) c' r' (by omega) hrec hs
      · rw [dif_neg hlt] at h
        simp only [Except.ok.injEq] at h
        subst h
        exact absurd rfl hs

/-- C8: repair is idempotent on an already-repaired structure.  Whenever
an invocation of `unwrap` completes successfully (its final verification
scan found no bond longer than `d_tolerance`, i.e. it did not exit with
the try-limit report), a second invocation with the same tolerance on the
resulting compound reports that zero bad bonds were found and changes no
particle position. -/
theorem unwrap_idempotent (tol : ℚ) (c : Compound) (count : ℕ) (r : UnwrapResult)
    (h : unwrapAux tol count c = .ok r) (hs : r.status ≠ .limitExceeded) :
    Compound.unwrap r.comp tol = .ok ⟨r.comp, .noBadBonds, 1⟩ := by
  have hbb := unwrapAux_success_no_bad tol (5 - count) count c r le_rfl h hs
  have hone : onePass tol r.comp = .ok (.clean r.comp) := by
    unfold onePass
    rw [if_pos hbb]
  unfold Compound.unwrap
  unfold unwrapAux
  simp only [hone]

/-! ## Concrete evaluation: short-bond compound (idempotence witness) -/

lemma exShort_badBonds : badBonds exShort (11/50) = [] := by
  have hnot : ¬ (dist3 (posOf exShort 0) (posOf exShort 1) > (((11/50 : ℚ) : ℚ) : ℝ)) := by
    rw [show posOf exShort 0 = ⟨0, 0, 0⟩ from rfl, show posOf exShort 1 = ⟨1/10, 0, 0⟩ from rfl,
      dist3_eq_ratCast _ _ (1/10) (by norm_num) (by unfold sqNorm vsub; norm_num)]
    push_cast
    norm_num
  unfold badBonds
  rw [show exShort.bonds = [(0, 1)] from rfl]
  simp only [List.filter_cons, List.filter_nil, decide_eq_true_eq]
  rw [if_neg hnot]

lemma exShort_unwrap : Compound.unwrap exShort (11/50) = .ok ⟨exShort, .noBadBonds, 1⟩ := by
  have hone : onePass (11/50) exShort = .ok (.clean exShort) := by
    unfold onePass
    rw [if_pos exShort_badBonds]
  unfold Compound.unwrap
  unfold unwrapAux
  simp only [hone]

/-- C8 witness: a compound whose single bond is below tolerance is
successfully "repaired" with no change, and the idempotence theorem
applied to that run reproduces the same no-bad-bonds result. -/
theorem unwrap_idempotent_witness :
    Compound.unwrap exShort (11/50) = .ok ⟨exShort, .noBadBonds, 1⟩
      ∧ (⟨exShort, .noBadBonds, 1⟩ : UnwrapResult).status ≠ .limitExceeded
      ∧ Compound.unwrap (⟨exShort, .noBadBonds, 1⟩ : UnwrapResult).comp (11/50)
          = .ok ⟨(⟨exShort, .noBadBonds, 1⟩ : UnwrapResult).comp, .noBadBonds, 1⟩ :=
  ⟨exShort_unwrap, by decide,
    unwrap_idempotent (11/50) exShort 0 ⟨exShort, .noBadBonds, 1⟩ exShort_unwrap (by decide)⟩

/-! ## Concrete evaluation: the box-less three-atom chain -/

lemma exNoBox_pos0 : posOf exNoBox 0 = ⟨0, 0, 0⟩ := rfl

lemma exNoBox_pos1 : posOf exNoBox 1 = ⟨1/10, 0, 0⟩ := rfl

lemma exNoBox_pos2 : posOf exNoBox 2 = ⟨5, 0, 0⟩ := rfl

lemma exNoBox_avg_full : avgDist exNoBox {0, 1, 2} = ((11/5 : ℚ) : ℝ) := by
  rw [avgDist_triple _ 0 1 2 (by decide) (by decide) (by decide),
    centroid_triple _ 0 1 2 (by decide) (by decide) (by decide),
    exNoBox_pos0, exNoBox_pos1, exNoBox_pos2]
  rw [dist3_eq_ratCast _ _ (17/10) (by norm_num) (by unfold sqNorm vsub; norm_num),
    dist3_eq_ratCast _ _ (16/10) (by norm_num) (by unfold sqNorm vsub; norm_num),
    dist3_eq_ratCast _ _ (33/10) (by norm_num) (by unfold sqNorm vsub; norm_num)]
  push_cast
  norm_num

lemma exNoBox_avg_02 : avgDist exNoBox {0, 2} = ((5/2 : ℚ) : ℝ) := by
  rw [avgDist_pair _ 0 2 (by decide), centroid_pair _ 0 2 (by decide),
    exNoBox_pos0, exNoBox_pos2]
  rw [dist3_eq_ratCast _ _ (5/2) (by norm_num) (by unfold sqNorm vsub; norm_num),
    dist3_eq_ratCast _ _ (5/2) (by norm_num) (by unfold sqNorm vsub; norm_num)]
  push_cast
  norm_num

lemma exNoBox_avg_01 : avgDist exNoBox {0, 1} = ((1/20 : ℚ) : ℝ) := by
  rw [avgDist_pair _ 0 1 (by decide), centroid_pair _ 0 1 (by decide),
    exNoBox_pos0, exNoBox_pos1]
  rw [dist3_eq_ratCast _ _ (1/20) (by norm_num) (by unfold sqNorm vsub; norm_num),
    dist3_eq_ratCast _ _ (1/20) (by norm_num) (by unfold sqNorm vsub; norm_num)]
  push_cast
  norm_num

lemma exNoBox_not_outlier_1 : ¬ isOutlier exNoBox [{0, 1, 2}] 1 := by
  unfold isOutlier
  rw [show lastMolOf [{0, 1, 2}] 1 = some {0, 1, 2} from by decide]
  show ¬ (avgDist exNoBox {0, 1, 2} > avgDist exNoBox (({0, 1, 2} : Finset ℕ).erase 1))
  rw [show ({0, 1, 2} : Finset ℕ).erase 1 = {0, 2} from by decide]
  rw [exNoBox_avg_full, exNoBox_avg_02]
  push_cast
  norm_num

lemma exNoBox_outlier_2 : isOutlier exNoBox [{0, 1, 2}] 2 := by
  unfold isOutlier
  rw [show lastMolOf [{0, 1, 2}] 2 = some {0, 1, 2} from by decide]
  show avgDist exNoBox {0, 1, 2} > avgDist exNoBox (({0, 1, 2} : Finset ℕ).erase 2)
  rw [show ({0, 1, 2} : Finset ℕ).erase 2 = {0, 1} from by decide]
  rw [exNoBox_avg_full, exNoBox_avg_01]
  push_cast
  norm_num

lemma exNoBox_classify :
    classifyBond exNoBox [{0, 1, 2}] (∅, ∅) (1, 2)
      = .ok (insert 2 ∅, insert 2 (insert 1 ∅)) := by
  unfold classifyBond
  rw [if_neg (fun hand => exNoBox_not_outlier_1 hand.1)]
  rw [if_neg exNoBox_not_outlier_1, if_pos exNoBox_outlier_2]

lemma exNoBox_badBonds : badBonds exNoBox (11/50) = [(1, 2)] := by
  have h01 : ¬ (dist3 (posOf exNoBox 0) (posOf exNoBox 1) > (((11/50 : ℚ) : ℚ) : ℝ)) := by
    rw [exNoBox_pos0, exNoBox_pos1,
      dist3_eq_ratCast _ _ (1/10) (by norm_num) (by unfold sqNorm vsub; norm_num)]
    push_cast
    norm_num
  have h12 : dist3 (posOf exNoBox 1) (posOf exNoBox 2) > (((11/50 : ℚ) : ℚ) : ℝ) := by
    rw [exNoBox_pos1, exNoBox_pos2,
      dist3_eq_ratCast _ _ (49/10) (by norm_num) (by unfold sqNorm vsub; norm_num)]
    push_cast
    norm_num
  unfold badBonds
  rw [show exNoBox.bonds = [(0, 1), (1, 2)] from rfl]
  simp only [List.filter_cons, List.filter_nil, decide_eq_true_eq]
  rw [if_neg h01, if_pos h12]

lemma exNoBox_findOutliers :
    findOutliers exNoBox [{0, 1, 2}] [(1, 2)] = .ok {2} := by
  unfold findOutliers
  rw [List.foldlM_cons, exNoBox_classify]
  simp only [List.foldlM_nil]
  exact congrArg Except.ok (by decide)

lemma exNoBox_onePass : onePass (11/50) exNoBox = .error .noBoxCrash := by
  unfold onePass
  simp only [show exNoBox.getMolecules = [{0, 1, 2}] from by decide, exNoBox_badBonds]
  rw [if_neg (show ¬([((1 : ℕ), (2 : ℕ))] = []) from by simp)]
  simp only [exNoBox_findOutliers]
  rw [if_neg (show ¬(Finset.filter
      (fun o => (firstMolIdx [{0, 1, 2}] o).isSome = true) {2} = ∅) from by decide)]
  rfl

/-- C9 (code divergence at the failing input): with no box set, `wrap`
catches the `TypeError`, reports, and leaves the compound unchanged, but
`unwrap` on a compound with a bad bond and a classified outlier reaches
`freud.box.Box(*list(self.box))` with `self.box = None` and raises an
uncaught `TypeError` instead of reporting and skipping. -/
theorem noBox_wrap_skips_unwrap_crashes :
    Compound.wrap exNoBox = (exNoBox, true)
      ∧ Compound.unwrap exNoBox (11/50) = .error .noBoxCrash := by
  constructor
  · rfl
  · unfold Compound.unwrap
    unfold unwrapAux
    rw [exNoBox_onePass]

/-! ## Concrete evaluation: the four-atom tie-break molecule -/

lemma exTie4_pos0 : posOf exTie4 0 = ⟨0, 0, 0⟩ := rfl

lemma exTie4_pos1 : posOf exTie4 1 = ⟨1/10, 0, 0⟩ := rfl

lemma exTie4_pos2 : posOf exTie4 2 = ⟨49/5, 0, 0⟩ := rfl

lemma exTie4_pos3 : posOf exTie4 3 = ⟨10, 0, 0⟩ := rfl

lemma exTie4_avg_full : avgDist exTie4 {0, 1, 2, 3} = ((197/40 : ℚ) : ℝ) := by
  rw [avgDist_quad _ 0 1 2 3 (by decide) (by decide) (by decide) (by decide) (by decide)
      (by decide),
    centroid_quad _ 0 1 2 3 (by decide) (by decide) (by decide) (by decide) (by decide)
      (by decide),
    exTie4_pos0, exTie4_pos1, exTie4_pos2, exTie4_pos3]
  rw [dist3_eq_ratCast _ _ (199/40) (by norm_num) (by unfold sqNorm vsub; norm_num),
    dist3_eq_ratCast _ _ (195/40) (by norm_num) (by unfold sqNorm vsub; norm_num),
    dist3_eq_ratCast _ _ (193/40) (by norm_num) (by unfold sqNorm vsub; norm_num),
    dist3_eq_ratCast _ _ (201/40) (by norm_num) (by unfold sqNorm vsub; norm_num)]
  push_cast
  norm_num

lemma exTie4_avg_123 : avgDist exTie4 {1, 2, 3} = ((196/45 : ℚ) : ℝ) := by
  rw [avgDist_triple _ 1 2 3 (by decide) (by decide) (by decide),
    centroid_triple _ 1 2 3 (by decide) (by decide) (by decide),
    exTie4_pos1, exTie4_pos2, exTie4_pos3]
  rw [dist3_eq_ratCast _ _ (196/30) (by norm_num) (by unfold sqNorm vsub; norm_num),
    dist3_eq_ratCast _ _ (95/30) (by norm_num) (by unfold sqNorm vsub; norm_num),
    dist3_eq_ratCast _ _ (101/30) (by norm_num) (by unfold sqNorm vsub; norm_num)]
  push_cast
  norm_num

lemma exTie4_avg_012 : avgDist exTie4 {0, 1, 2} = ((13/3 : ℚ) : ℝ) := by
  rw [avgDist_triple _ 0 1 2 (by decide) (by decide) (by decide),
    centroid_triple _ 0 1 2 (by decide) (by decide) (by decide),
    exTie4_pos0, exTie4_pos1, exTie4_pos2]
  rw [dist3_eq_ratCast _ _ (33/10) (by norm_num) (by unfold sqNorm vsub; norm_num),
    dist3_eq_ratCast _ _ (32/10) (by norm_num) (by unfold sqNorm vsub; norm_num),
    dist3_eq_ratCast _ _ (65/10) (by norm_num) (by unfold sqNorm vsub; norm_num)]
  push_cast
  norm_num

lemma exTie4_outlier_0 : isOutlier exTie4 [{0, 1, 2, 3}] 0 := by
  unfold isOutlier
  rw [show lastMolOf [{0, 1, 2, 3}] 0 = some {0, 1, 2, 3} from by decide]
  show avgDist exTie4 {0, 1, 2, 3} > avgDist exTie4 (({0, 1, 2, 3} : Finset ℕ).erase 0)
  rw [show ({0, 1, 2, 3} : Finset ℕ).erase 0 = {1, 2, 3} from by decide]
  rw [exTie4_avg_full, exTie4_avg_123]
  push_cast
  norm_num

lemma exTie4_outlier_3 : isOutlier exTie4 [{0, 1, 2, 3}] 3 := by
  unfold isOutlier
  rw [show lastMolOf [{0, 1, 2, 3}] 3 = some {0, 1, 2, 3} from by decide]
  show avgDist exTie4 {0, 1, 2, 3} > avgDist exTie4 (({0, 1, 2, 3} : Finset ℕ).erase 3)
  rw [show ({0, 1, 2, 3} : Finset ℕ).erase 3 = {0, 1, 2} from by decide]
  rw [exTie4_avg_full, exTie4_avg_012]
  push_cast
  norm_num

/-- C2: during classification, for a bad bond `(a, b)` whose endpoints
both test as outliers (removal of either one lowers its molecule's mean
particle-to-centroid distance), the endpoint farther from its molecule's
centroid is the one added to the outlier set; when the two distances are
exactly equal, classification aborts with the fatal `RuntimeError`
carrying both candidate indices instead of picking one. -/
theorem classify_tiebreak (c : Compound) (mols : List (Finset ℕ))
    (st : Finset ℕ × Finset ℕ) (a b : ℕ)
    (ha : isOutlier c mols a) (hb : isOutlier c mols b) :
    (dToCenter c mols a > dToCenter c mols b →
      classifyBond c mols st (a, b) = .ok (insert a st.1, insert b (insert a st.2)))
    ∧ (dToCenter c mols b > dToCenter c mols a →
      classifyBond c mols st (a, b) = .ok (insert b st.1, insert b (insert a st.2)))
    ∧ (dToCenter c mols a = dToCenter c mols b →
      classifyBond c mols st (a, b) = .error (.ambiguous a b)) := by
  unfold classifyBond
  refine ⟨fun hgt => ?_, fun hgt => ?_, fun heq => ?_⟩
  · rw [if_pos ⟨ha, hb⟩, if_pos hgt]
  · rw [if_pos ⟨ha, hb⟩, if_neg (lt_asymm hgt), if_pos hgt]
  · rw [if_pos ⟨ha, hb⟩, if_neg (by rw [heq]; exact lt_irrefl _),
      if_neg (by rw [heq]; exact lt_irrefl _)]

/-- C2 witness: on the four-atom molecule `exTie4` both endpoints of the
long bond `(0, 3)` test as outliers, and the classification theorem
applies to them. -/
theorem classify_tiebreak_witness :
    (isOutlier exTie4 [{0, 1, 2, 3}] 0 ∧ isOutlier exTie4 [{0, 1, 2, 3}] 3)
    ∧ ((dToCenter exTie4 [{0, 1, 2, 3}] 0 > dToCenter exTie4 [{0, 1, 2, 3}] 3 →
        classifyBond exTie4 [{0, 1, 2, 3}] (∅, ∅) (0, 3)
          = .ok (insert 0 ∅, insert 3 (insert 0 ∅)))
      ∧ (dToCenter exTie4 [{0, 1, 2, 3}] 3 > dToCenter exTie4 [{0, 1, 2, 3}] 0 →
        classifyBond exTie4 [{0, 1, 2, 3}] (∅, ∅) (0, 3)
          = .ok (insert 3 ∅, insert 3 (insert 0 ∅)))
      ∧ (dToCenter exTie4 [{0, 1, 2, 3}] 0 = dToCenter exTie4 [{0, 1, 2, 3}] 3 →
        classifyBond exTie4 [{0, 1, 2, 3}] (∅, ∅) (0, 3)
          = .error (.ambiguous 0 3))) :=
  ⟨⟨exTie4_outlier_0, exTie4_outlier_3⟩,
    classify_tiebreak exTie4 [{0, 1, 2, 3}] (∅, ∅) 0 3 exTie4_outlier_0 exTie4_outlier_3⟩

/-! ## Coarse-graining: acceptance policy, labels, bead bonds -/

lemma hasCommonMember_true (seen : Finset ℕ) (g : List ℕ) (a : ℕ)
    (hag : a ∈ g) (has : a ∈ seen) : hasCommonMember seen g = true := by
  unfold hasCommonMember
  rw [List.any_eq_true]
  exact ⟨a, hag, by simpa using has⟩

lemma hasCommonMember_false (seen : Finset ℕ) (g : List ℕ)
    (h : ∀ a ∈ g, a ∉ seen) : hasCommonMember seen g = false := by
  unfold hasCommonMember
  rw [List.any_eq_false]
  intro a hag
  simpa using h a hag

/-- C4: walking matches in order with a claimed-atom set, a ring-like
match (digit in its SMARTS) is always accepted and claims its atoms even
when they are already claimed; a chain-like match is accepted exactly
when none of its atoms is claimed, and is otherwise discarded entirely
(the claimed set is unchanged).  In particular, chain-like `{0,1,2}`
followed by chain-like `{2,3,4}` leaves exactly the first accepted. -/
theorem selectBeads_policy :
    (∀ (m : BeadMatch) (rest : List BeadMatch) (seen : Finset ℕ),
      (hasNumber m.smarts = true →
        selectBeads (m :: rest) seen
          = ((selectBeads rest (seen ∪ m.group.toFinset)).1,
             m :: (selectBeads rest (seen ∪ m.group.toFinset)).2))
      ∧ (hasNumber m.smarts = false → (∃ a ∈ m.group, a ∈ seen) →
          selectBeads (m :: rest) seen = selectBeads rest seen)
      ∧ (hasNumber m.smarts = false → (∀ a ∈ m.group, a ∉ seen) →
          selectBeads (m :: rest) seen
            = ((selectBeads rest (seen ∪ m.group.toFinset)).1,
               m :: (selectBeads rest (seen ∪ m.group.toFinset)).2)))
    ∧ (selectBeads [⟨[0, 1, 2], "CCC", "_A"⟩, ⟨[2, 3, 4], "CCC", "_A"⟩] ∅).2
        = [⟨[0, 1, 2], "CCC", "_A"⟩] := by
  constructor
  · intro m rest seen
    refine ⟨fun hnum => ?_, fun hnum hcommon => ?_, fun hnum hdisj => ?_⟩
    · conv_lhs => unfold selectBeads
      rw [if_pos hnum]
    · obtain ⟨a, hag, has⟩ := hcommon
      conv_lhs => unfold selectBeads
      rw [if_neg (by rw [hnum]; exact Bool.false_ne_true),
        if_pos (hasCommonMember_true seen m.group a hag has)]
    · conv_lhs => unfold selectBeads
      rw [if_neg (by rw [hnum]; exact Bool.false_ne_true),
        if_neg (by rw [hasCommonMember_false seen m.group hdisj]; exact Bool.false_ne_true)]
  · decide

/-- C4 witness: the ring-like branch of the policy theorem applied to a
match whose atoms are already claimed. -/
theorem selectBeads_policy_witness :
    hasNumber "c1c" = true
    ∧ selectBeads [⟨[0, 1], "c1c", "_A"⟩] {0}
        = ((selectBeads [] ({0} ∪ ([0, 1] : List ℕ).toFinset)).1,
           ⟨[0, 1], "c1c", "_A"⟩ :: (selectBeads [] ({0} ∪ ([0, 1] : List ℕ).toFinset)).2) :=
  ⟨by decide, (selectBeads_policy.1 ⟨[0, 1], "c1c", "_A"⟩ [] {0}).1 (by decide)⟩

/-- C10: whether a match may overlap previously claimed atoms is a
function solely of `has_number` of its SMARTS string, which is true
exactly when the string contains a decimal digit: a digit-bearing match
is accepted unconditionally, and a digit-free match is accepted iff it
shares no member with the claimed set. -/
theorem ring_iff_digit :
    (∀ s : String, hasNumber s = true ↔ ∃ ch ∈ s.data, ch.isDigit = true)
    ∧ (∀ (m : BeadMatch) (rest : List BeadMatch) (seen : Finset ℕ),
        hasNumber m.smarts = true →
          selectBeads (m :: rest) seen
            = ((selectBeads rest (seen ∪ m.group.toFinset)).1,
               m :: (selectBeads rest (seen ∪ m.group.toFinset)).2))
    ∧ (∀ (m : BeadMatch) (rest : List BeadMatch) (seen : Finset ℕ),
        hasNumber m.smarts = false →
          selectBeads (m :: rest) seen
            = if hasCommonMember seen m.group then selectBeads rest seen
              else ((selectBeads rest (seen ∪ m.group.toFinset)).1,
                m :: (selectBeads rest (seen ∪ m.group.toFinset)).2)) := by
  refine ⟨fun s => ?_, fun m rest seen hnum => ?_, fun m rest seen hnum => ?_⟩
  · unfold hasNumber
    rw [List.any_eq_true]
  · conv_lhs => unfold selectBeads
    rw [if_pos hnum]
  · conv_lhs => unfold selectBeads
    rw [if_neg (by rw [hnum]; exact Bool.false_ne_true)]

/-- C10 witness: the chain-like branch applied to a digit-free match. -/
theorem ring_iff_digit_witness :
    hasNumber "CCC" = false
    ∧ selectBeads [⟨[5], "CCC", "_A"⟩] {5}
        = if hasCommonMember {5} [5] then selectBeads [] {5}
          else ((selectBeads [] ({5} ∪ ([5] : List ℕ).toFinset)).1,
            ⟨[5], "CCC", "_A"⟩ :: (selectBeads [] ({5} ∪ ([5] : List ℕ).toFinset)).2) :=
  ⟨by decide, ring_iff_digit.2.2 ⟨[5], "CCC", "_A"⟩ [] {5} (by decide)⟩

set_option maxRecDepth 10000 in
lemma charOfNat_inj :
    ∀ a : ℕ, a < 91 → ∀ b : ℕ, b < 91 → 64 ≤ a → 64 ≤ b →
      Char.ofNat a = Char.ofNat b → a = b := by decide

/-- C6 (amended): every bead's label is the bead name attached to its
match: the prefix `"_"` followed by `num2str i` where `i` is the index of
its originating SMARTS pattern in the input list.  `num2str` is injective
on `0..701` (the base-26 letter sequence `A..Z, AA, AB, ...`), so beads
from distinct patterns never share a label — but every match of the same
pattern gets the same label, so bead labels are not unique per bead (see
the counterexample). -/
theorem bead_labels :
    (∀ i j : ℕ, i ≤ 701 → j ≤ 701 → i ≠ j → num2str i ≠ num2str j)
    ∧ (∀ (bs : List String) (f : String → List (List ℕ)) (m : BeadMatch),
        m ∈ mkMatches bs f →
        ∃ i s, bs[i]? = some s ∧ m.smarts = s ∧ m.bname = "_" ++ num2str i
          ∧ ∃ g ∈ f s, m.group = g.map (fun a => a - 1)) := by
  constructor
  · intro i j hi hj hne heq
    unfold num2str at heq
    by_cases h1 : i < 26 <;> by_cases h2 : j < 26
    · rw [if_pos h1, if_pos h2] at heq
      have heq' := congrArg String.data heq
      simp only [List.cons.injEq, and_true] at heq'
      have := charOfNat_inj (i + 65) (by omega) (j + 65) (by omega) (by omega) (by omega) heq'
      omega
    · rw [if_pos h1, if_neg h2] at heq
      have heq' := congrArg String.data heq
      simp at heq'
    · rw [if_neg h1, if_pos h2] at heq
      have heq' := congrArg String.data heq
      simp at heq'
    · rw [if_neg h1, if_neg h2] at heq
      have heq' := congrArg String.data heq
      simp only [List.cons.injEq, and_true] at heq'
      obtain ⟨e1, e2⟩ := heq'
      have d1 := charOfNat_inj (i / 26 + 64) (by omega) (j / 26 + 64) (by omega)
        (by omega) (by omega) e1
      have d2 := charOfNat_inj (i % 26 + 65) (by omega) (j % 26 + 65) (by omega)
        (by omega) (by omega) e2
      omega
  · intro bs f m hm
    unfold mkMatches at hm
    rw [List.mem_flatMap] at hm
    obtain ⟨⟨i, s⟩, henum, hmap⟩ := hm
    obtain ⟨hi, hs⟩ := List.mem_enum henum
    rw [List.mem_map] at hmap
    obtain ⟨g, hg, hgm⟩ := hmap
    refine ⟨i, s, ?_, ?_, ?_, g, ?_, ?_⟩
    · rw [List.getElem?_eq_getElem hi, hs]
    · rw [← hgm]
    · rw [← hgm]
    · exact hg
    · rw [← hgm]

/-- C6 counterexample: one SMARTS pattern (`"CCC"`, two disjoint matches)
yields two accepted beads that carry the same label `"_A"`, so labels are
not unique per bead within one reduction. -/
theorem bead_labels_shared_cex :
    mkMatches ["CCC"] (fun s => if s = "CCC" then [[1, 2], [3, 4]] else [])
        = [⟨[0, 1], "CCC", "_A"⟩, ⟨[2, 3], "CCC", "_A"⟩]
      ∧ ((selectBeads (mkMatches ["CCC"]
            (fun s => if s = "CCC" then [[1, 2], [3, 4]] else [])) ∅).2.map
          (fun m => m.bname)) = ["_A", "_A"] := by
  constructor
  · decide
  · decide

lemma mem_insertPair (p a : ℕ × ℕ) : ∀ l, a ∈ insertPair p l ↔ a = p ∨ a ∈ l := by
  intro l
  induction l with
  | nil => simp [insertPair]
  | cons q rest ih =>
    unfold insertPair
    split
    · simp [List.mem_cons]
    · rw [List.mem_cons, ih, List.mem_cons]
      tauto

lemma mem_sortPairs (l : List (ℕ × ℕ)) (a : ℕ × ℕ) : a ∈ sortPairs l ↔ a ∈ l := by
  unfold sortPairs
  induction l with
  | nil => simp
  | cons q rest ih =>
    rw [List.foldr_cons, mem_insertPair, List.mem_cons, ih]

lemma getBonds_mem (c : Compound) (q : ℕ × ℕ) :
    q ∈ getBonds c ↔ ∃ p ∈ c.bonds, q = normPair p := by
  unfold getBonds
  rw [mem_sortPairs, List.mem_dedup, List.mem_map]
  constructor
  · rintro ⟨p, hp, rfl⟩
    exact ⟨p, hp, rfl⟩
  · rintro ⟨p, hp, rfl⟩
    exact ⟨p, hp, rfl⟩

lemma normPair_cross (p : ℕ × ℕ) (gi gj : List ℕ) :
    (((normPair p).1 ∈ gi ∧ (normPair p).2 ∈ gj)
        ∨ ((normPair p).2 ∈ gi ∧ (normPair p).1 ∈ gj))
      ↔ ((p.1 ∈ gi ∧ p.2 ∈ gj) ∨ (p.2 ∈ gi ∧ p.1 ∈ gj)) := by
  unfold normPair
  rcases le_total p.1 p.2 with h | h
  · rw [min_eq_left h, max_eq_right h]
  · rw [min_eq_right h, max_eq_left h]
    simp only []
    tauto

lemma addBond_bonds_mono (c : Compound) (p e : ℕ × ℕ) (h : e ∈ c.bonds) :
    e ∈ (addBond c p).bonds := by
  unfold addBond
  split
  · exact h
  · exact List.mem_append_left _ h

lemma addBond_mem_inv (c : Compound) (p e : ℕ × ℕ) (h : e ∈ (addBond c p).bonds) :
    e ∈ c.bonds ∨ e = p := by
  unfold addBond at h
  split at h
  · exact Or.inl h
  · rcases List.mem_append.mp h with h' | h'
    · exact Or.inl h'
    · exact Or.inr (List.mem_singleton.mp h')

lemma addBond_edgeMem_self (c : Compound) (p : ℕ × ℕ) : edgeMem (addBond c p).bonds p := by
  unfold addBond edgeMem
  by_cases hin : p ∈ c.bonds ∨ (p.2, p.1) ∈ c.bonds
  · rw [if_pos hin]
    exact hin
  · rw [if_neg hin]
    exact Or.inl (List.mem_append_right _ (List.mem_singleton_self p))

lemma addBond_edgeMem_mono (c : Compound) (p e : ℕ × ℕ) (h : edgeMem c.bonds e) :
    edgeMem (addBond c p).bonds e := by
  rcases h with h | h
  · exact Or.inl (addBond_bonds_mono c p _ h)
  · exact Or.inr (addBond_bonds_mono c p _ h)

lemma addBond_edgeCount (c : Compound) (p e : ℕ × ℕ) (h : edgeCount c.bonds e ≤ 1) :
    edgeCount (addBond c p).bonds e ≤ 1 := by
  unfold addBond
  by_cases hin : p ∈ c.bonds ∨ (p.2, p.1) ∈ c.bonds
  · rw [if_pos hin]
    exact h
  · rw [if_neg hin]
    show edgeCount (c.bonds ++ [p]) e ≤ 1
    unfold edgeCount at h ⊢
    rw [List.filter_append, List.length_append]
    by_cases hmatch : p = e ∨ p = (e.2, e.1)
    · have hzero : (List.filter (fun q => decide (q = e ∨ q = (e.2, e.1))) c.bonds).length
          = 0 := by
        rw [List.length_eq_zero]
        by_contra hne
        obtain ⟨q, hq⟩ := List.exists_mem_of_ne_nil _ hne
        obtain ⟨hqmem, hqcond⟩ := List.mem_filter.mp hq
        rw [decide_eq_true_eq] at hqcond
        apply hin
        rcases hmatch with rfl | hpe
        · rcases hqcond with rfl | rfl
          · exact Or.inl hqmem
          · exact Or.inr hqmem
        · subst hpe
          rcases hqcond with rfl | rfl
          · exact Or.inr hqmem
          · exact Or.inl hqmem
      have hle := List.length_filter_le (fun q => decide (q = e ∨ q = (e.2, e.1))) [p]
      simp only [List.length_singleton] at hle
      omega
    · have hnil : List.filter (fun q => decide (q = e ∨ q = (e.2, e.1))) [p] = [] := by
        rw [List.filter_cons, if_neg (by simpa using hmatch), List.filter_nil]
      rw [hnil]
      simpa using h

lemma foldl_addBond_edgeMem (N : ℕ) :
    ∀ (l : List (ℕ × ℕ)) (c : Compound) (e : ℕ × ℕ), edgeMem c.bonds e →
      edgeMem ((l.foldl (fun acc pr => addBond acc (pr.1 + N, pr.2 + N)) c)).bonds e := by
  intro l
  induction l with
  | nil => intro c e h; exact h
  | cons x l ih =>
    intro c e h
    exact ih _ _ (addBond_edgeMem_mono _ _ _ h)

lemma foldl_addBond_covers (N : ℕ) :
    ∀ (l : List (ℕ × ℕ)) (c : Compound) (pr : ℕ × ℕ), pr ∈ l →
      edgeMem ((l.foldl (fun acc pr => addBond acc (pr.1 + N, pr.2 + N)) c)).bonds
        (pr.1 + N, pr.2 + N) := by
  intro l
  induction l with
  | nil => intro c pr h; exact absurd h (List.not_mem_nil pr)
  | cons x l ih =>
    intro c pr h
    rcases List.mem_cons.mp h with rfl | h'
    · exact foldl_addBond_edgeMem N l _ _ (addBond_edgeMem_self _ _)
    · exact ih _ _ h'

lemma foldl_addBond_inv (N : ℕ) :
    ∀ (l : List (ℕ × ℕ)) (c : Compound) (e : ℕ × ℕ),
      e ∈ ((l.foldl (fun acc pr => addBond acc (pr.1 + N, pr.2 + N)) c)).bonds →
      e ∈ c.bonds ∨ ∃ pr ∈ l, e = (pr.1 + N, pr.2 + N) := by
  intro l
  induction l with
  | nil => intro c e h; exact Or.inl h
  | cons x l ih =>
    intro c e h
    rcases ih _ _ h with h' | ⟨pr, hpr, rfl⟩
    · rcases addBond_mem_inv _ _ _ h' with h'' | rfl
      · exact Or.inl h''
      · exact Or.inr ⟨x, List.mem_cons_self _ _, rfl⟩
    · exact Or.inr ⟨pr, List.mem_cons_of_mem _ hpr, rfl⟩

lemma foldl_addBond_edgeCount (N : ℕ) :
    ∀ (l : List (ℕ × ℕ)) (c : Compound) (e : ℕ × ℕ), edgeCount c.bonds e ≤ 1 →
      edgeCount ((l.foldl (fun acc pr => addBond acc (pr.1 + N, pr.2 + N)) c)).bonds e ≤ 1 := by
  intro l
  induction l with
  | nil => intro c e h; exact h
  | cons x l ih =>
    intro c e h
    exact ih _ _ (addBond_edgeCount _ _ _ h)

lemma crossPairs_mem (bonds : List (ℕ × ℕ)) (beads : List BeadMatch) (i j : ℕ) :
    (i, j) ∈ crossPairs bonds beads ↔
      i < j ∧ j < beads.length ∧ ∃ p ∈ bonds,
        (p.1 ∈ (beads.getD i ⟨[], "", ""⟩).group ∧ p.2 ∈ (beads.getD j ⟨[], "", ""⟩).group)
        ∨ (p.2 ∈ (beads.getD i ⟨[], "", ""⟩).group
            ∧ p.1 ∈ (beads.getD j ⟨[], "", ""⟩).group) := by
  unfold crossPairs
  simp only [List.mem_flatMap, List.mem_range]
  constructor
  · rintro ⟨i', hi', j', hj', p, hp, hmem⟩
    rw [List.mem_append] at hmem
    rcases hmem with hmem | hmem
    · by_cases hc : p.1 ∈ (beads.getD i' ⟨[], "", ""⟩).group
          ∧ p.2 ∈ (beads.getD (j' + i' + 1) ⟨[], "", ""⟩).group
      · rw [if_pos hc, List.mem_singleton, Prod.mk.injEq] at hmem
        obtain ⟨rfl, rfl⟩ := hmem
        exact ⟨by omega, by omega, p, hp, Or.inl hc⟩
      · rw [if_neg hc] at hmem
        exact absurd hmem (List.not_mem_nil _)
    · by_cases hc : p.2 ∈ (beads.getD i' ⟨[], "", ""⟩).group
          ∧ p.1 ∈ (beads.getD (j' + i' + 1) ⟨[], "", ""⟩).group
      · rw [if_pos hc, List.mem_singleton, Prod.mk.injEq] at hmem
        obtain ⟨rfl, rfl⟩ := hmem
        exact ⟨by omega, by omega, p, hp, Or.inr hc⟩
      · rw [if_neg hc] at hmem
        exact absurd hmem (List.not_mem_nil _)
  · rintro ⟨hij, hjlen, p, hp, hcond⟩
    refine ⟨i, by omega, j - i - 1, by omega, p, hp, ?_⟩
    have hj : j - i - 1 + i + 1 = j := by omega
    rw [hj, List.mem_append]
    rcases hcond with hc | hc
    · left
      rw [if_pos hc]
      exact List.mem_singleton_self _
    · right
      rw [if_pos hc]
      exact List.mem_singleton_self _

/-- C5: for each pair of accepted groups `i < j`, the compound produced
by `cg_bonds` contains a bond between the corresponding bead particles
(at indices `i + N`, `j + N`) iff some atomistic bond connects an atom of
group `i` with an atom of group `j`, and it contains at most one such
bead-to-bead bond however many atomistic bonds cross between the two
groups. -/
theorem cgBonds_cross (c : Compound) (beads : List BeadMatch) (i j : ℕ)
    (hij : i < j) (hj : j < beads.length)
    (hwf : ∀ p ∈ c.bonds, p.1 < c.pos.length ∧ p.2 < c.pos.length) :
    (edgeMem (cgBonds (cgComp c beads).1 beads (cgComp c beads).2).bonds
        (i + c.pos.length, j + c.pos.length)
      ↔ ∃ p ∈ c.bonds,
          (p.1 ∈ (beads.getD i ⟨[], "", ""⟩).group ∧ p.2 ∈ (beads.getD j ⟨[], "", ""⟩).group)
          ∨ (p.2 ∈ (beads.getD i ⟨[], "", ""⟩).group
              ∧ p.1 ∈ (beads.getD j ⟨[], "", ""⟩).group))
    ∧ edgeCount (cgBonds (cgComp c beads).1 beads (cgComp c beads).2).bonds
        (i + c.pos.length, j + c.pos.length) ≤ 1 := by
  have hbonds : (cgComp c beads).1.bonds = c.bonds := rfl
  constructor
  · constructor
    · intro hmem
      unfold cgBonds at hmem
      rcases hmem with hmem | hmem
      · rcases foldl_addBond_inv _ _ _ _ hmem with h' | ⟨pr, hpr, heq⟩
        · rw [hbonds] at h'
          have := (hwf _ h').1
          omega
        · rw [Prod.mk.injEq] at heq
          rw [show (cgComp c beads).2 = c.pos.length from rfl] at heq
          have hpr1 : pr.1 = i := by omega
          have hpr2 : pr.2 = j := by omega
          rw [show pr = (i, j) from Prod.ext hpr1 hpr2] at hpr
          rw [crossPairs_mem] at hpr
          obtain ⟨_, _, q, hq, hqc⟩ := hpr
          rw [getBonds_mem] at hq
          obtain ⟨p, hp, rfl⟩ := hq
          rw [normPair_cross] at hqc
          exact ⟨p, by rw [hbonds] at hp; exact hp, hqc⟩
      · rcases foldl_addBond_inv _ _ _ _ hmem with h' | ⟨pr, hpr, heq⟩
        · rw [hbonds] at h'
          have := (hwf _ h').2
          omega
        · rw [Prod.mk.injEq] at heq
          rw [show (cgComp c beads).2 = c.pos.length from rfl] at heq
          have hpr1 : pr.1 = j := by omega
          have hpr2 : pr.2 = i := by omega
          rw [show pr = (j, i) from Prod.ext hpr1 hpr2] at hpr
          rw [crossPairs_mem] at hpr
          omega
    · rintro ⟨p, hp, hcond⟩
      have hq : normPair p ∈ getBonds (cgComp c beads).1 := by
        rw [getBonds_mem]
        exact ⟨p, by rw [hbonds]; exact hp, rfl⟩
      have hcp : (i, j) ∈ crossPairs (getBonds (cgComp c beads).1) beads := by
        rw [crossPairs_mem]
        exact ⟨hij, hj, normPair p, hq, (normPair_cross p _ _).mpr hcond⟩
      unfold cgBonds
      exact foldl_addBond_covers _ _ _ _ hcp
  · unfold cgBonds
    apply foldl_addBond_edgeCount
    have h0 : edgeCount (cgComp c beads).1.bonds (i + c.pos.length, j + c.pos.length)
        = 0 := by
      unfold edgeCount
      rw [List.length_eq_zero, List.filter_eq_nil_iff]
      intro q hq
      rw [hbonds] at hq
      rw [decide_eq_true_eq]
      rintro (rfl | rfl)
      · have := (hwf _ hq).1
        omega
      · have := (hwf _ hq).1
        omega
    omega

/-- C5 witness: the bead-bond theorem applied to the four-atom chain
reduced to two beads, whose middle bond crosses between the groups. -/
theorem cgBonds_cross_witness :
    ((0 : ℕ) < 1 ∧ 1 < exCGBeads.length
      ∧ ∀ p ∈ exCGComp.bonds, p.1 < exCGComp.pos.length ∧ p.2 < exCGComp.pos.length)
    ∧ ((edgeMem (cgBonds (cgComp exCGComp exCGBeads).1 exCGBeads
            (cgComp exCGComp exCGBeads).2).bonds
          (0 + exCGComp.pos.length, 1 + exCGComp.pos.length)
        ↔ ∃ p ∈ exCGComp.bonds,
            (p.1 ∈ (exCGBeads.getD 0 ⟨[], "", ""⟩).group
                ∧ p.2 ∈ (exCGBeads.getD 1 ⟨[], "", ""⟩).group)
            ∨ (p.2 ∈ (exCGBeads.getD 0 ⟨[], "", ""⟩).group
                ∧ p.1 ∈ (exCGBeads.getD 1 ⟨[], "", ""⟩).group))
      ∧ edgeCount (cgBonds (cgComp exCGComp exCGBeads).1 exCGBeads
            (cgComp exCGComp exCGBeads).2).bonds
          (0 + exCGComp.pos.length, 1 + exCGComp.pos.length) ≤ 1) :=
  ⟨⟨by decide, by decide, by decide⟩,
    cgBonds_cross exCGComp exCGBeads 0 1 (by decide) (by decide) (by decide)⟩

/-- C6 witness: two distinct pattern indices receive distinct labels. -/
theorem bead_labels_witness :
    ((0 : ℕ) ≤ 701 ∧ (1 : ℕ) ≤ 701 ∧ (0 : ℕ) ≠ 1) ∧ num2str 0 ≠ num2str 1 :=
  ⟨⟨by decide, by decide, by decide⟩, bead_labels.1 0 1 (by decide) (by decide) (by decide)⟩
